import Mathlib

/-!
Verification of the atrament.js drawing library (src/atrament.js, src/pointer.js).

The development shallowly embeds the two algorithmic cores of the library:

* the stack-based scanline flood fill (`_floodFill`, lines 377-458 of
  src/atrament.js) together with the fill-request queue (`fill`, lines 356-375),
  modelled over a raw byte buffer `ℕ → ℕ` exactly as the code manipulates
  `ImageData.data` (a pixel occupies bytes `(y*W+x)*4 .. +3`);
* the smoothed, adaptive-thickness stroke renderer (`draw`, lines 215-260),
  the pointermove handler (lines 38-63), stroke recording
  (`beginStroke`/`endStroke`, lines 165-204) and the validating setters
  (lines 262-309), modelled over `ℝ` coordinates.

The repository's `pixels.js` and `constants.js` are not part of the sources
under verification; the handful of primitives they provide (`lineDistance`,
`matchColor`, `colorPixel`, the named tuning constants) are modelled from the
specification and are marked `Modelled from the spec:` below.
-/

/-- An RGBA color, one byte per channel, as sampled from an `ImageData` buffer
(`Array.from(context.getImageData(x, y, 1, 1).data)` in the source). -/
structure Rgba where
  r : ℕ
  g : ℕ
  b : ℕ
  a : ℕ
deriving DecidableEq, Repr

/-- Channel `k` (0 = r, 1 = g, 2 = b, 3 = a) of a color. -/
def channelOf (c : Rgba) (k : ℕ) : ℕ :=
  if k = 0 then c.r else if k = 1 then c.g else if k = 2 then c.b else c.a

/-- Byte offset of pixel `(x, y)` in a row-major RGBA buffer of width `W`:
`pixelPos = (y * canvasWidth + x) * 4` in `_floodFill`. -/
def pixelPos (W x y : ℕ) : ℕ := (y * W + x) * 4

/-- Modelled from the spec: `pixels.js` `matchColor(data, r, g, b, a)` is not
under src/. Per the spec it returns a closure deciding whether the pixel at a
byte offset "equals the reference color within an implementation-defined
tolerance"; the tolerance `tol` is kept as a parameter (exact equality is
`tol = 0`). -/
def matchColor (tol : ℕ) (data : ℕ → ℕ) (r g b a : ℕ) (pos : ℕ) : Bool :=
  decide (Nat.dist (data pos) r ≤ tol) &&
  decide (Nat.dist (data (pos + 1)) g ≤ tol) &&
  decide (Nat.dist (data (pos + 2)) b ≤ tol) &&
  decide (Nat.dist (data (pos + 3)) a ≤ tol)

/-- Modelled from the spec: the per-channel blend used by `colorPixel` — the
fill color is blended into the old value with weight derived from `alpha`
(a flat overwrite when `alpha = 255`). -/
def blendChannel (old c alpha : ℕ) : ℕ := (c * alpha + old * (255 - alpha)) / 255

/-- Modelled from the spec: `pixels.js` `colorPixel(data, r, g, b, startColor,
alpha)` is not under src/. Per the spec it "writes a blended color at a given
offset, where the blend weight derives from `alpha`"; the alpha byte is set to
`alpha` itself. `startColor` is part of the source signature. -/
def colorPixel (data : ℕ → ℕ) (fr fg fb : ℕ) (startColor : Rgba) (alpha : ℕ)
    (pos : ℕ) : ℕ → ℕ :=
  Function.update
    (Function.update
      (Function.update
        (Function.update data pos (blendChannel (data pos) fr alpha))
        (pos + 1) (blendChannel (data (pos + 1)) fg alpha))
      (pos + 2) (blendChannel (data (pos + 2)) fb alpha))
    (pos + 3) alpha

/-- Tolerance comparison of two whole colors; `matchColor` at the offset of a
pixel holding `p` compared against reference `c` computes exactly this. -/
def matchRgba (tol : ℕ) (p c : Rgba) : Bool :=
  decide (Nat.dist p.r c.r ≤ tol) && decide (Nat.dist p.g c.g ≤ tol) &&
  decide (Nat.dist p.b c.b ≤ tol) && decide (Nat.dist p.a c.a ≤ tol)

/-- The color of pixel `(x, y)` of a buffer (the four bytes at its offset). -/
def readPixel (W : ℕ) (data : ℕ → ℕ) (x y : ℕ) : Rgba :=
  ⟨data (pixelPos W x y), data (pixelPos W x y + 1),
   data (pixelPos W x y + 2), data (pixelPos W x y + 3)⟩

/-- The membership test for the axis-aligned rectangle `[x0..x1] × [y0..y1]`. -/
def inR (x0 x1 y0 y1 x y : ℕ) : Prop := x0 ≤ x ∧ x ≤ x1 ∧ y0 ≤ y ∧ y ≤ y1

instance (x0 x1 y0 y1 x y : ℕ) : Decidable (inR x0 x1 y0 y1 x y) := by
  unfold inR; infer_instance

/-- A `W × H` RGBA buffer holding a single axis-aligned rectangle
`[x0..x1] × [y0..y1]` of uniform color `c1` on a background of `c2`
(the scenario of the fill-completeness property). -/
def rectData (W : ℕ) (c1 c2 : Rgba) (x0 x1 y0 y1 : ℕ) : ℕ → ℕ := fun bIdx =>
  channelOf (if inR x0 x1 y0 y1 (bIdx / 4 % W) (bIdx / 4 / W) then c1 else c2)
    (bIdx % 4)

/-- A buffer `base` with every pixel in the set `S` overwritten by `fill`
(used to describe the intermediate buffers of a flood-fill pass). -/
def markData (W : ℕ) (base : ℕ → ℕ) (S : ℕ → ℕ → Bool) (fill : Rgba) :
    ℕ → ℕ := fun bIdx =>
  if S (bIdx / 4 % W) (bIdx / 4 / W) then channelOf fill (bIdx % 4) else base bIdx

/-- The upward walk of `_floodFill` (lines 405-412 of src/atrament.js):

    let pixelPos = (y * canvasWidth + x) * 4;
    while (y-- >= 0 && matchColor(pixelPos)) { pixelPos -= canvasWidth * 4; }
    pixelPos += canvasWidth * 4;
    ++y;

`m v` is `matchColor` at row `v` of the popped column. The loop leaves
`pixelPos`/`y` at the topmost row of the matching run containing the seed row
(row `0` if the run reaches the top edge, and `y + 1` if the seed row itself
does not match); `scanUp m y` returns that row. -/
def scanUp (m : ℕ → Bool) : ℕ → ℕ
  | 0 => if m 0 then 0 else 1
  | y + 1 => if m (y + 1) then scanUp m y else y + 2

/-- The downward scan of `_floodFill` (lines 414-445 of src/atrament.js):

    while (y++ < canvasHeight - 1 && matchColor(pixelPos)) {
      colorPixel(pixelPos);
      if (x > 0) { if (matchColor(pixelPos - 4)) { if (!reachLeft) {
        pixelStack.push([x - 1, y]); reachLeft = true; } }
        else if (reachLeft) { reachLeft = false; } }
      if (x < canvasWidth - 1) { ... reachRight ... }
      pixelPos += canvasWidth * 4;
    }

At each loop head the buffer offset `pixelPos` denotes row `r` while the
variable `y` holds `r - 1`, so the guard `y++ < canvasHeight - 1` is `r < H`;
seeds are pushed onto the shared pixel stack (head = top of stack, matching
`Array.prototype.push`/`pop` at the array's end), left push before right. -/
def downScan (tol W H : ℕ) (sc : Rgba) (fr fg fb alpha : ℕ) (data : ℕ → ℕ)
    (x r : ℕ) (reachLeft reachRight : Bool) (stack : List (ℕ × ℕ)) :
    (ℕ → ℕ) × List (ℕ × ℕ) :=
  if h : r < H ∧ matchColor tol data sc.r sc.g sc.b sc.a (pixelPos W x r) = true then
    let d := colorPixel data fr fg fb sc alpha (pixelPos W x r)
    let afterL :=
      if 0 < x then
        if matchColor tol d sc.r sc.g sc.b sc.a (pixelPos W (x - 1) r) then
          if reachLeft = false then (((x - 1, r) :: stack), true)
          else (stack, reachLeft)
        else (stack, false)
      else (stack, reachLeft)
    let afterR :=
      if x < W - 1 then
        if matchColor tol d sc.r sc.g sc.b sc.a (pixelPos W (x + 1) r) then
          if reachRight = false then (((x + 1, r) :: afterL.1), true)
          else (afterL.1, reachRight)
        else (afterL.1, false)
      else (afterL.1, reachRight)
    downScan tol W H sc fr fg fb alpha d x (r + 1) afterL.2 afterR.2 afterR.1
  else (data, stack)
termination_by H - r
decreasing_by simp_wf; omega

/-- The outer stack loop of `_floodFill` (lines 400-446 of src/atrament.js):
pop a seed, run the upward walk (`scanUp`) to find the top of its matching
run, then the downward coloring scan (`downScan`). `fuel` bounds the number
of pops; the source loop runs until the stack is empty. -/
def floodFillLoop (tol W H : ℕ) (sc : Rgba) (fr fg fb alpha : ℕ) :
    ℕ → (ℕ → ℕ) → List (ℕ × ℕ) → (ℕ → ℕ) × List (ℕ × ℕ)
  | 0, data, stack => (data, stack)
  | Nat.succ fuel, data, stack =>
    match stack with
    | [] => (data, [])
    | (x, y) :: rest =>
      let top := scanUp (fun v => matchColor tol data sc.r sc.g sc.b sc.a (pixelPos W x v)) y
      let run := downScan tol W H sc fr fg fb alpha data x top false false rest
      floodFillLoop tol W H sc fr fg fb alpha fuel run.1 run.2

/-- One flood-fill pass (lines 377-449 of src/atrament.js), without the queue
recursion: floor the seed (`Math.floor(_startX)`, modelled on `ℚ` coordinates;
in-bounds seeds are nonnegative so `Int.toNat` is exact), take the working
copy `colorLayer`, abort with no commit when the seed pixel already matches
`[...fillColor, 255]`, and otherwise run the scanline loop and commit
(`putImageData`). Returns the canvas contents and whether the commit ran.
The fill color is the RGB triple `(fr, fg, fb)` (the source obtains it from
`Pixels.hexToRgb(this.color)`); `alpha = min(globalAlpha * 10 * 255, 255)`. -/
def floodFillStep (tol W H loopFuel fr fg fb alpha : ℕ) (data : ℕ → ℕ)
    (startX startY : ℚ) (startColor : Rgba) : (ℕ → ℕ) × Bool :=
  let sx := (⌊startX⌋).toNat
  let sy := (⌊startY⌋).toNat
  if matchColor tol data fr fg fb 255 (pixelPos W sx sy) then (data, false)
  else ((floodFillLoop tol W H startColor fr fg fb alpha loopFuel data [(sx, sy)]).1, true)

/-- Events dispatched by the fill engine (`fillstart` carries the pointer
position of the request that found the engine idle; `fillend` signals the end
of a busy period). -/
inductive FillEvent
  | fillstart (x y : ℚ)
  | fillend
deriving DecidableEq

/-- State of the fill engine: the `_filling` flag, the FIFO `_fillStack` of
queued `[x, y, startColor]` requests, the start color captured by the pending
`setTimeout` callback (the callback reads the pointer position only when it
fires), the canvas byte buffer, the dispatched events, and a trace of the
passes `_floodFill` actually executed (in execution order). -/
structure FillEngine where
  filling : Bool
  fillStack : List (ℚ × ℚ × Rgba)
  scheduled : Option Rgba
  data : ℕ → ℕ
  events : List FillEvent
  passes : List (ℚ × ℚ × Rgba)

/-- The `fill()` method (lines 356-375 of src/atrament.js): sample the start
color at the pointer now; if no fill is running, dispatch `fillstart`, set
`_filling` and schedule the pass; otherwise append `[pointer.x, pointer.y,
startColor]` to `_fillStack`. `getImageData`'s WebIDL integer conversion is
modelled as `Int.toNat ∘ Int.floor` (exact for the nonnegative in-canvas
coordinates of interest). -/
def fillOp (W : ℕ) (s : FillEngine) (x y : ℚ) : FillEngine :=
  let startColor := readPixel W s.data (⌊x⌋).toNat (⌊y⌋).toNat
  if s.filling then { s with fillStack := s.fillStack ++ [(x, y, startColor)] }
  else { s with events := s.events ++ [FillEvent.fillstart x y],
                filling := true,
                scheduled := some startColor }

/-- `_floodFill` including its queue recursion (lines 377-458 of
src/atrament.js): run one pass; on the same-color early return (lines
393-398) reset `_filling` and dispatch `fillend` without touching the queue;
after a committed pass, recurse on the shifted head of `_fillStack` if any,
else reset `_filling` and dispatch `fillend`. `passes` records each pass as
it starts (trace instrumentation only). -/
def floodFillDrive (tol W H loopFuel fr fg fb alpha : ℕ) :
    ℕ → FillEngine → ℚ × ℚ × Rgba → FillEngine
  | 0, s, _ => s
  | Nat.succ fuel, s, req =>
    let s0 : FillEngine := { s with passes := s.passes ++ [req] }
    let res := floodFillStep tol W H loopFuel fr fg fb alpha s0.data req.1 req.2.1 req.2.2
    if res.2 = true then
      match s0.fillStack with
      | next :: rest =>
        floodFillDrive tol W H loopFuel fr fg fb alpha fuel
          { s0 with data := res.1, fillStack := rest } next
      | [] => { s0 with data := res.1, filling := false,
                        events := s0.events ++ [FillEvent.fillend] }
    else { s0 with filling := false, events := s0.events ++ [FillEvent.fillend] }

/-- The `setTimeout` callback firing: the scheduled pass starts on the pointer
position current at firing time (`pointer.x`/`pointer.y` are read inside the
callback) with the start color captured at submission time. -/
def fireTimeout (tol W H loopFuel fr fg fb alpha fuel : ℕ) (s : FillEngine)
    (px py : ℚ) : FillEngine :=
  match s.scheduled with
  | none => s
  | some sc =>
    floodFillDrive tol W H loopFuel fr fg fb alpha fuel
      { s with scheduled := none } (px, py, sc)

/-- Number of `fillend` events in a trace. -/
def countFillend (l : List FillEvent) : ℕ :=
  l.countP fun e => match e with | FillEvent.fillend => true | _ => false

/-- Number of `fillstart` events in a trace. -/
def countFillstart (l : List FillEvent) : ℕ :=
  l.countP fun e => match e with | FillEvent.fillstart _ _ => true | _ => false

/-- 4-adjacency of two pixel coordinates. -/
def adj4 (p q : ℕ × ℕ) : Prop :=
  (q.1 = p.1 + 1 ∧ q.2 = p.2) ∨ (p.1 = q.1 + 1 ∧ q.2 = p.2) ∨
  (q.2 = p.2 + 1 ∧ q.1 = p.1) ∨ (p.2 = q.2 + 1 ∧ q.1 = p.1)

/-- The 4-connected closure of `seed` inside the pixel set `S`: reachability
by steps between 4-adjacent pixels that both lie in `S`. -/
def floodReach (S : ℕ × ℕ → Prop) (seed p : ℕ × ℕ) : Prop :=
  Relation.ReflTransGen (fun u v => S u ∧ S v ∧ adj4 u v) seed p

/- The drawing-mode strings of `DrawingMode` (lines 6-12 of src/atrament.js). -/
namespace DrawingMode

def DRAW : String := "draw"

def ERASE : String := "erase"

def FILL : String := "fill"

def DISABLED : String := "disabled"

def PICKER : String := "picker"

end DrawingMode

/-- Modelled from the spec: `constants.js` is not under src/. These are the
named tuning constants the renderer reads; the spec fixes only their roles
(the smoothing factor is "hard-clipped to a ceiling (≈1)" named
`minSmoothingFactor`, and thickness converges "by one fixed increment per
call"), so they are kept as parameters. -/
structure DrawConsts where
  initialSmoothingFactor : ℝ
  initialThickness : ℝ
  weightSpread : ℝ
  minSmoothingFactor : ℝ
  minLineThickness : ℝ
  lineThicknessRange : ℝ
  thicknessIncrement : ℝ

/-- A 2D point (`Point` of src/pointer.js). -/
structure Pt where
  x : ℝ
  y : ℝ

/-- One recorded stroke sample: `{ point, time }` with `time` the elapsed
milliseconds since the stroke's start (`performance.now() - strokeTimestamp`). -/
structure StrokePoint where
  point : Pt
  time : ℝ

/-- The `strokerecorded` payload (lines 191-198 of src/atrament.js). -/
structure StrokeRec where
  points : List StrokePoint
  mode : String
  weight : ℝ
  smoothing : ℝ
  color : String
  adaptiveStroke : Bool

/-- The drawing-side state of an `Atrament` instance: the stroke style fields,
the pointer (current, previous, down flag, from src/pointer.js), stroke
recording state and the `_dirty` flag. `clockIdx` indexes the ambient
monotone clock: each `performance.now()` call reads `clock clockIdx` and
advances the index. -/
structure AtramentS where
  smoothing : ℝ
  thickness : ℝ
  targetThickness : ℝ
  weight : ℝ
  maxWeight : ℝ
  adaptiveStroke : Bool
  lineWidth : ℝ
  mode : String
  gco : String
  strokeStyle : String
  recordStrokes : Bool
  strokeMemory : List StrokePoint
  strokeTimestamp : Option ℝ
  pointerX : ℝ
  pointerY : ℝ
  prevX : ℝ
  prevY : ℝ
  pointerDown : Bool
  dirty : Bool
  clockIdx : ℕ

/-- Modelled from the spec: `pixels.js` `lineDistance` is not under src/; per
the spec it is the "raw Euclidean distance" between the two points. -/
noncomputable def lineDistance (x y x2 y2 : ℝ) : ℝ :=
  Real.sqrt ((x2 - x) ^ 2 + (y2 - y) ^ 2)

/-- The `draw(x, y, prevX, prevY)` method (lines 215-260 of src/atrament.js):
optionally record the raw sample, compute the distance-scaled smoothing
factor clipped at `Constants.minSmoothingFactor`, the smoothed point, the
smoothed distance, and (when `adaptiveStroke`) step `_thickness` by one
`Constants.thicknessIncrement` toward the recomputed `_targetThickness`;
set the context line width; return the smoothed point. -/
noncomputable def drawFn (C : DrawConsts) (clock : ℕ → ℝ) (s : AtramentS)
    (x y prevX prevY : ℝ) : AtramentS × Pt :=
  let s1 := if s.recordStrokes then
      { s with
        strokeMemory := s.strokeMemory ++
          [⟨⟨x, y⟩, clock s.clockIdx - s.strokeTimestamp.getD 0⟩],
        clockIdx := s.clockIdx + 1 }
    else s
  let rawDist := lineDistance x y prevX prevY
  let smoothingFactor := min C.minSmoothingFactor (s1.smoothing + (rawDist - 60) / 3000)
  let procX := x - (x - prevX) * smoothingFactor
  let procY := y - (y - prevY) * smoothingFactor
  let dist := lineDistance procX procY prevX prevY
  let s2 := if s1.adaptiveStroke then
      let tgt := (dist - C.minLineThickness) / C.lineThicknessRange *
        (s1.maxWeight - s1.weight) + s1.weight
      let th := if s1.thickness > tgt then s1.thickness - C.thicknessIncrement
        else if s1.thickness < tgt then s1.thickness + C.thicknessIncrement
        else s1.thickness
      { s1 with targetThickness := tgt, thickness := th, lineWidth := th }
    else { s1 with lineWidth := s1.weight }
  (s2, ⟨procX, procY⟩)

/-- The `pointermove` handler (lines 38-63 of src/atrament.js): when the
pointer is down in a path-drawing mode, draw from the previous smoothed point,
fire `dirty` on a first real movement in draw mode, store the raw position in
`pointer` and the *returned* smoothed point in `pointer.previous`; otherwise
just track the raw position. -/
noncomputable def pointerMoveFn (C : DrawConsts) (clock : ℕ → ℝ)
    (s : AtramentS) (x y : ℝ) : AtramentS :=
  if s.pointerDown = true ∧ (s.mode = DrawingMode.DRAW ∨ s.mode = DrawingMode.ERASE) then
    let run := drawFn C clock s x y s.prevX s.prevY
    let s1 := run.1
    let s2 := if s1.dirty = false ∧ s1.mode = DrawingMode.DRAW ∧
        (¬x = s1.pointerX ∨ ¬y = s1.pointerY) then { s1 with dirty := true } else s1
    { s2 with pointerX := x, pointerY := y, prevX := run.2.x, prevY := run.2.y }
  else { s with pointerX := x, pointerY := y }

/-- `beginStroke(x, y)` (lines 165-174 of src/atrament.js): open the path;
when recording, set `strokeTimestamp := performance.now()` and push the anchor
with elapsed time `performance.now() - strokeTimestamp` (two separate clock
reads); dispatch `strokestart`. -/
def beginStroke (clock : ℕ → ℝ) (s : AtramentS) (x y : ℝ) : AtramentS :=
  if s.recordStrokes then
    { s with
      strokeTimestamp := some (clock s.clockIdx),
      strokeMemory := s.strokeMemory ++
        [⟨⟨x, y⟩, clock (s.clockIdx + 1) - clock s.clockIdx⟩],
      clockIdx := s.clockIdx + 2 }
  else s

/-- `endStroke(x, y)` (lines 182-204 of src/atrament.js): close the path;
when recording, push the end anchor, then emit the `strokerecorded` payload
built from a copy of `strokeMemory`; finally clear `strokeMemory` and delete
`strokeTimestamp`. Returns the new state and the emitted stroke, if any. -/
def endStroke (clock : ℕ → ℝ) (s : AtramentS) (x y : ℝ) :
    AtramentS × Option StrokeRec :=
  let s1 := if s.recordStrokes then
      { s with
        strokeMemory := s.strokeMemory ++
          [⟨⟨x, y⟩, clock s.clockIdx - s.strokeTimestamp.getD 0⟩],
        clockIdx := s.clockIdx + 1 }
    else s
  let recorded := if s1.recordStrokes then
      some ⟨s1.strokeMemory, s1.mode, s1.weight, s1.smoothing, s1.strokeStyle,
            s1.adaptiveStroke⟩
    else none
  ({ s1 with strokeMemory := [], strokeTimestamp := none }, recorded)

/-- A dynamically-typed JavaScript value, as far as the setters' `typeof`
checks observe it. -/
inductive JsVal
  | str (s : String)
  | num (x : ℝ)
  | other

/-- Whether `typeof v === 'string'`. -/
def JsVal.isString : JsVal → Bool
  | JsVal.str _ => true
  | _ => false

/-- Whether `typeof v === 'number'`. -/
def JsVal.isNumber : JsVal → Bool
  | JsVal.num _ => true
  | _ => false

/-- The `color` setter (lines 266-269 of src/atrament.js): throw
`wrong argument type` on a non-string, else assign `context.strokeStyle`.
Returns the state after the call and the thrown message, if any. -/
def setColor (s : AtramentS) (v : JsVal) : AtramentS × Option String :=
  match v with
  | JsVal.str c => ({ s with strokeStyle := c }, none)
  | _ => (s, some "wrong argument type")

/-- The `weight` setter (lines 275-281 of src/atrament.js): throw on a
non-number, else assign `_weight`, `_thickness`, `_targetThickness` and
`_maxWeight = w + Constants.weightSpread`. -/
def setWeight (C : DrawConsts) (s : AtramentS) (v : JsVal) :
    AtramentS × Option String :=
  match v with
  | JsVal.num w =>
    ({ s with weight := w, thickness := w, targetThickness := w,
              maxWeight := w + C.weightSpread }, none)
  | _ => (s, some "wrong argument type")

/-- The `mode` setter (lines 287-309 of src/atrament.js): throw on a
non-string, else switch on the mode string; the `default` branch selects
`draw` mode with `source-over` compositing. -/
def setMode (s : AtramentS) (v : JsVal) : AtramentS × Option String :=
  match v with
  | JsVal.str m =>
    if m = DrawingMode.ERASE then
      ({ s with mode := DrawingMode.ERASE, gco := "destination-out" }, none)
    else if m = DrawingMode.FILL then
      ({ s with mode := DrawingMode.FILL, gco := "source-over" }, none)
    else if m = DrawingMode.DISABLED then
      ({ s with mode := DrawingMode.DISABLED }, none)
    else if m = DrawingMode.PICKER then
      ({ s with mode := DrawingMode.PICKER }, none)
    else ({ s with mode := DrawingMode.DRAW, gco := "source-over" }, none)
  | _ => (s, some "wrong argument type")

/-- The rectangle buffer with the full columns in the set `P` (clipped to the
rectangle) already recolored to the fill color at alpha 255: the shape of the
buffer between two pops of the scanline loop on the rectangle scenario. -/
def colsBuf (W : ℕ) (c1 c2 : Rgba) (x0 x1 y0 y1 fr fg fb : ℕ) (P : ℕ → Bool) :
    ℕ → ℕ :=
  markData W (rectData W c1 c2 x0 x1 y0 y1)
    (fun u v => P u && decide (inR x0 x1 y0 y1 u v)) ⟨fr, fg, fb, 255⟩

/-- As `colsBuf`, with column `x` additionally recolored on rows
`y0 ≤ v < r`: the shape of the buffer in the middle of a downward scan. -/
def colsBufPart (W : ℕ) (c1 c2 : Rgba) (x0 x1 y0 y1 fr fg fb : ℕ)
    (P : ℕ → Bool) (x r : ℕ) : ℕ → ℕ :=
  markData W (rectData W c1 c2 x0 x1 y0 y1)
    (fun u v => (P u && decide (inR x0 x1 y0 y1 u v)) ||
      (decide (u = x) && decide (y0 ≤ v) && decide (v < r))) ⟨fr, fg, fb, 255⟩

/-- The interval `[a..b]` of columns as a `Bool`-valued set. -/
def colsIcc (a b : ℕ) : ℕ → Bool := fun u => decide (a ≤ u) && decide (u ≤ b)

/-- A concrete instantiation of the tuning constants, consistent with the
spec's constraints (smoothing ceiling "≈1", positive increment and spread),
used for concrete executions of the renderer. -/
noncomputable def ceConsts : DrawConsts := ⟨0.85, 2, 10, 1, 1, 20, 1 / 2⟩

/-- A concrete renderer state: `weight = 2` just set through the `weight`
setter (so `_thickness = _targetThickness = 2`, `_maxWeight = 12`), adaptive
stroke on, `smoothing` configured to `0`, not recording. -/
noncomputable def ceState : AtramentS :=
  ⟨0, 2, 2, 2, 12, true, 2, "draw", "source-over", "#000000", false, [],
   none, 0, 0, 0, 0, true, false, 0⟩

/-- One `draw(60, 0, 0, 0)` call under `ceConsts` (state part). -/
noncomputable def ceStep (s : AtramentS) : AtramentS :=
  (drawFn ceConsts (fun _ => 0) s 60 0 0 0).1

/-! ## Setter claims -/

/-- C8: assigning a non-string value to the `color` or `mode` property, or a
non-numeric value to the `weight` property, raises `wrong argument type`
synchronously, and the operation is atomic: the returned state is exactly the
state before the call — no field is mutated before validation. -/
theorem claim_C8_setter_validation (C : DrawConsts) (s : AtramentS) (v : JsVal) :
    (v.isString = false →
      setColor s v = (s, some "wrong argument type") ∧
      setMode s v = (s, some "wrong argument type")) ∧
    (v.isNumber = false →
      setWeight C s v = (s, some "wrong argument type")) := by
  cases v <;> simp [setColor, setMode, setWeight, JsVal.isString, JsVal.isNumber]

/-- Witness for C8 at a concrete state and the value `JsVal.other`. -/
theorem claim_C8_setter_validation_witness :
    let s : AtramentS :=
      ⟨0, 1, 1, 1, 11, true, 1, "draw", "source-over", "#000000", false, [],
       none, 0, 0, 0, 0, false, false, 0⟩
    let C : DrawConsts := ⟨0.85, 1, 10, 0.87, 1, 20, 0.5⟩
    (JsVal.other.isString = false ∧ JsVal.other.isNumber = false) ∧
    ((JsVal.other.isString = false →
        setColor s JsVal.other = (s, some "wrong argument type") ∧
        setMode s JsVal.other = (s, some "wrong argument type")) ∧
      (JsVal.other.isNumber = false →
        setWeight C s JsVal.other = (s, some "wrong argument type"))) := by
  exact ⟨⟨rfl, rfl⟩, claim_C8_setter_validation _ _ _⟩

/-- C9: assigning any string other than `erase`, `fill`, `disabled` or
`picker` to the `mode` property never raises an error — the `default` switch
branch silently selects `draw` mode and `source-over` compositing. -/
theorem claim_C9_unknown_mode_defaults (s : AtramentS) (m : String)
    (h1 : m ≠ DrawingMode.ERASE) (h2 : m ≠ DrawingMode.FILL)
    (h3 : m ≠ DrawingMode.DISABLED) (h4 : m ≠ DrawingMode.PICKER) :
    setMode s (JsVal.str m) =
      ({ s with mode := DrawingMode.DRAW, gco := "source-over" }, none) := by
  simp [setMode, h1, h2, h3, h4]

/-- Witness for C9 at the unknown mode string `bogus`. -/
theorem claim_C9_unknown_mode_defaults_witness :
    let s : AtramentS :=
      ⟨0, 1, 1, 1, 11, true, 1, "erase", "destination-out", "#000000", false, [],
       none, 0, 0, 0, 0, false, false, 0⟩
    ("bogus" ≠ DrawingMode.ERASE ∧ "bogus" ≠ DrawingMode.FILL ∧
     "bogus" ≠ DrawingMode.DISABLED ∧ "bogus" ≠ DrawingMode.PICKER) ∧
    setMode s (JsVal.str "bogus") =
      ({ s with mode := DrawingMode.DRAW, gco := "source-over" }, none) := by
  exact ⟨⟨by decide, by decide, by decide, by decide⟩,
    claim_C9_unknown_mode_defaults _ _ (by decide) (by decide) (by decide) (by decide)⟩

/-! ## Stroke renderer claims -/

/-- C5: for every `draw(x, y, prevX, prevY)` call, the effective smoothing
factor is `min(configured ceiling, smoothing + (rawDist - 60) / 3000)` with
`rawDist` the Euclidean distance of the two points — so the factor never
exceeds the ceiling, however large `rawDist` is — and the returned smoothed
point is `(x - (x - prevX)·factor, y - (y - prevY)·factor)`. -/
theorem claim_C5_smoothing_factor (C : DrawConsts) (clock : ℕ → ℝ)
    (s : AtramentS) (x y prevX prevY : ℝ) :
    min C.minSmoothingFactor (s.smoothing + (lineDistance x y prevX prevY - 60) / 3000)
        ≤ C.minSmoothingFactor ∧
    (drawFn C clock s x y prevX prevY).2 =
      ⟨x - (x - prevX) *
         min C.minSmoothingFactor (s.smoothing + (lineDistance x y prevX prevY - 60) / 3000),
       y - (y - prevY) *
         min C.minSmoothingFactor (s.smoothing + (lineDistance x y prevX prevY - 60) / 3000)⟩ := by
  refine ⟨min_le_left _ _, ?_⟩
  cases hrec : s.recordStrokes <;> simp [drawFn, hrec]

/-- C6: after a `pointermove` sample processed while the pointer is down in a
path-drawing mode, `pointer.previous` holds exactly the smoothed point
returned by `draw` (and `pointer` holds the raw sample), never the raw input
coordinate. -/
theorem claim_C6_previous_point_chaining (C : DrawConsts) (clock : ℕ → ℝ)
    (s : AtramentS) (x y : ℝ) (hdown : s.pointerDown = true)
    (hmode : s.mode = DrawingMode.DRAW ∨ s.mode = DrawingMode.ERASE) :
    (pointerMoveFn C clock s x y).prevX = (drawFn C clock s x y s.prevX s.prevY).2.x ∧
    (pointerMoveFn C clock s x y).prevY = (drawFn C clock s x y s.prevX s.prevY).2.y ∧
    (pointerMoveFn C clock s x y).pointerX = x ∧
    (pointerMoveFn C clock s x y).pointerY = y := by
  rw [pointerMoveFn, if_pos ⟨hdown, hmode⟩]
  exact ⟨rfl, rfl, rfl, rfl⟩

/-- Witness for C6: a concrete down state in draw mode. -/
theorem claim_C6_previous_point_chaining_witness :
    let s : AtramentS :=
      ⟨0, 1, 1, 1, 11, true, 1, "draw", "source-over", "#000000", false, [],
       none, 0, 0, 0, 0, true, false, 0⟩
    let C : DrawConsts := ⟨0.85, 1, 10, 0.87, 1, 20, 0.5⟩
    let clock : ℕ → ℝ := fun _ => 0
    (s.pointerDown = true ∧ (s.mode = DrawingMode.DRAW ∨ s.mode = DrawingMode.ERASE)) ∧
    ((pointerMoveFn C clock s 3 4).prevX = (drawFn C clock s 3 4 s.prevX s.prevY).2.x ∧
     (pointerMoveFn C clock s 3 4).prevY = (drawFn C clock s 3 4 s.prevX s.prevY).2.y ∧
     (pointerMoveFn C clock s 3 4).pointerX = 3 ∧
     (pointerMoveFn C clock s 3 4).pointerY = 4) := by
  exact ⟨⟨rfl, Or.inl rfl⟩,
    claim_C6_previous_point_chaining _ _ _ _ _ rfl (Or.inl rfl)⟩

/-! ## Adaptive thickness (C3) -/

/-- C3 (amended): per `draw` call, `_thickness` changes by at most one
`thicknessIncrement` in absolute value, stepping toward `_targetThickness`
exactly by `±thicknessIncrement` (never assigned the target directly), and the
new `_thickness` never exceeds `max(previous _thickness, _targetThickness +
thicknessIncrement)`. (The original bound by `_maxWeight = weight +
weightSpread` fails: `_targetThickness` is not clamped, see the
counterexample.) -/
theorem claim_C3_thickness_step (C : DrawConsts) (clock : ℕ → ℝ)
    (s : AtramentS) (x y px py : ℝ) (hinc : 0 ≤ C.thicknessIncrement) :
    |(drawFn C clock s x y px py).1.thickness - s.thickness| ≤ C.thicknessIncrement ∧
    (drawFn C clock s x y px py).1.thickness ≤
      max s.thickness ((drawFn C clock s x y px py).1.targetThickness + C.thicknessIncrement) ∧
    (s.adaptiveStroke = true →
      (s.thickness < (drawFn C clock s x y px py).1.targetThickness →
        (drawFn C clock s x y px py).1.thickness = s.thickness + C.thicknessIncrement) ∧
      (s.thickness > (drawFn C clock s x y px py).1.targetThickness →
        (drawFn C clock s x y px py).1.thickness = s.thickness - C.thicknessIncrement) ∧
      (s.thickness = (drawFn C clock s x y px py).1.targetThickness →
        (drawFn C clock s x y px py).1.thickness = s.thickness)) := by
  cases hrec : s.recordStrokes <;> cases hada : s.adaptiveStroke <;>
    simp only [drawFn, hrec, hada, Bool.false_eq_true, if_false, if_true,
      Bool.true_eq_false, false_implies, and_true, true_implies]
  case false.false =>
    exact ⟨by simpa using hinc, le_max_left _ _⟩
  case true.false =>
    exact ⟨by simpa using hinc, le_max_left _ _⟩
  all_goals split_ifs with h1 h2
  all_goals refine ⟨?_, ?_, ?_, ?_, ?_⟩
  all_goals try exact fun _ => rfl
  all_goals try exact fun hc => absurd hc (lt_asymm h1)
  all_goals try exact fun hc => absurd hc (ne_of_gt h1)
  all_goals try exact fun hc => absurd hc (lt_asymm h2)
  all_goals try exact fun hc => absurd hc (ne_of_lt h2)
  all_goals try exact fun hc => absurd hc h1
  all_goals try exact fun hc => absurd hc h2
  all_goals try
    rw [show s.thickness - C.thicknessIncrement - s.thickness = -C.thicknessIncrement from by ring,
      abs_neg, abs_of_nonneg hinc]
  all_goals try
    rw [show s.thickness + C.thicknessIncrement - s.thickness = C.thicknessIncrement from by ring,
      abs_of_nonneg hinc]
  all_goals try rw [sub_self, abs_zero]; try exact hinc
  all_goals try exact le_trans (by linarith) (le_max_left _ _)
  all_goals exact le_trans (by linarith [le_of_lt h2]) (le_max_right _ _)

/-- Witness for C3 (amended) at a concrete call. -/
theorem claim_C3_thickness_step_witness :
    0 ≤ ceConsts.thicknessIncrement ∧
    (|(drawFn ceConsts (fun _ => 0) ceState 60 0 0 0).1.thickness - ceState.thickness| ≤
        ceConsts.thicknessIncrement ∧
      (drawFn ceConsts (fun _ => 0) ceState 60 0 0 0).1.thickness ≤
        max ceState.thickness
          ((drawFn ceConsts (fun _ => 0) ceState 60 0 0 0).1.targetThickness +
            ceConsts.thicknessIncrement) ∧
      (ceState.adaptiveStroke = true →
        (ceState.thickness < (drawFn ceConsts (fun _ => 0) ceState 60 0 0 0).1.targetThickness →
          (drawFn ceConsts (fun _ => 0) ceState 60 0 0 0).1.thickness =
            ceState.thickness + ceConsts.thicknessIncrement) ∧
        (ceState.thickness > (drawFn ceConsts (fun _ => 0) ceState 60 0 0 0).1.targetThickness →
          (drawFn ceConsts (fun _ => 0) ceState 60 0 0 0).1.thickness =
            ceState.thickness - ceConsts.thicknessIncrement) ∧
        (ceState.thickness = (drawFn ceConsts (fun _ => 0) ceState 60 0 0 0).1.targetThickness →
          (drawFn ceConsts (fun _ => 0) ceState 60 0 0 0).1.thickness = ceState.thickness))) := by
  exact ⟨by norm_num [ceConsts],
    claim_C3_thickness_step ceConsts (fun _ => 0) ceState 60 0 0 0 (by norm_num [ceConsts])⟩

/-- One concrete `draw(60, 0, 0, 0)` call under `ceConsts` steps `_thickness`
up by the increment `1/2` toward the unclamped target `63/2`, while the
scenario fields are preserved. -/
theorem ceStep_fields (s : AtramentS) (h1 : s.recordStrokes = false)
    (h2 : s.adaptiveStroke = true) (h3 : s.smoothing = 0) (h4 : s.maxWeight = 12)
    (h5 : s.weight = 2) (h6 : s.thickness < 63 / 2) :
    (ceStep s).thickness = s.thickness + 1 / 2 ∧ (ceStep s).maxWeight = 12 ∧
    (ceStep s).weight = 2 ∧ (ceStep s).recordStrokes = false ∧
    (ceStep s).adaptiveStroke = true ∧ (ceStep s).smoothing = 0 := by
  have hd : lineDistance 60 0 0 0 = 60 := by
    unfold lineDistance
    rw [show ((0 : ℝ) - 60) ^ 2 + ((0 : ℝ) - 0) ^ 2 = 60 ^ 2 by norm_num]
    exact Real.sqrt_sq (by norm_num)
  have hfac : min ceConsts.minSmoothingFactor
      (s.smoothing + (lineDistance 60 0 0 0 - 60) / 3000) = 0 := by
    rw [hd, h3]
    norm_num [ceConsts]
  unfold ceStep drawFn
  rw [if_neg (by simp [h1])]
  simp only [hfac, h2, if_true]
  rw [show (60 : ℝ) - (60 - 0) * 0 = 60 by ring, show (0 : ℝ) - (0 - 0) * 0 = 0 by ring, hd]
  have htgt : (60 - ceConsts.minLineThickness) / ceConsts.lineThicknessRange *
      (s.maxWeight - s.weight) + s.weight = 63 / 2 := by
    rw [h4, h5]; norm_num [ceConsts]
  rw [htgt]
  rw [if_neg (by exact not_lt.mpr h6.le), if_pos h6]
  refine ⟨by norm_num [ceConsts], h4, h5, h1, by simp [h2], h3⟩

/-- Iterating the concrete call `n ≤ 21` times from `ceState` leaves
`_thickness = 2 + n/2` (and the scenario fields unchanged). -/
theorem ceStep_iter (n : ℕ) :
    n ≤ 21 →
    (ceStep^[n] ceState).thickness = 2 + n * (1 / 2) ∧
    (ceStep^[n] ceState).maxWeight = 12 ∧ (ceStep^[n] ceState).weight = 2 ∧
    (ceStep^[n] ceState).recordStrokes = false ∧
    (ceStep^[n] ceState).adaptiveStroke = true ∧
    (ceStep^[n] ceState).smoothing = 0 := by
  induction n with
  | zero =>
    intro _
    refine ⟨?_, rfl, rfl, rfl, rfl, rfl⟩
    show ceState.thickness = 2 + (0 : ℕ) * (1 / 2)
    norm_num [ceState]
  | succ n ih =>
    intro hn
    obtain ⟨t, mw, w, rec, ada, sm⟩ := ih (by omega)
    have hcast : (n : ℝ) ≤ 20 := by exact_mod_cast Nat.le_of_lt_succ (by omega)
    have hlt : (ceStep^[n] ceState).thickness < 63 / 2 := by rw [t]; linarith
    have hstep := ceStep_fields (ceStep^[n] ceState) rec ada sm mw w hlt
    rw [Function.iterate_succ_apply']
    refine ⟨?_, hstep.2.1, hstep.2.2.1, hstep.2.2.2.1, hstep.2.2.2.2.1, hstep.2.2.2.2.2⟩
    rw [hstep.1, t]
    push_cast
    ring

/-- Counterexample to C3's bound: after 21 `draw(60, 0, 0, 0)` calls from
`ceState` (weight 2, spread 10), `_thickness = 12.5` strictly exceeds
`_maxWeight = weight + weightSpread = 12` — the target is not clamped, so
stepping toward it crosses the bound. -/
theorem claim_C3_counterexample :
    (ceStep^[21] ceState).maxWeight =
      (ceStep^[21] ceState).weight + ceConsts.weightSpread ∧
    (ceStep^[21] ceState).maxWeight < (ceStep^[21] ceState).thickness := by
  obtain ⟨t, mw, w, -, -, -⟩ := ceStep_iter 21 le_rfl
  constructor
  · rw [mw, w]; norm_num [ceConsts]
  · rw [t, mw]; norm_num

/-! ## Stroke recording (C7) -/

/-- Recording-related fields of the state after a `draw` call: the raw sample
is appended with its elapsed time, one clock read is consumed, and the
recording flag and stroke timestamp are untouched. -/
theorem drawFn_recording (C : DrawConsts) (clock : ℕ → ℝ) (s : AtramentS)
    (x y px py : ℝ) (h : s.recordStrokes = true) :
    (drawFn C clock s x y px py).1.strokeMemory =
      s.strokeMemory ++ [⟨⟨x, y⟩, clock s.clockIdx - s.strokeTimestamp.getD 0⟩] ∧
    (drawFn C clock s x y px py).1.clockIdx = s.clockIdx + 1 ∧
    (drawFn C clock s x y px py).1.recordStrokes = true ∧
    (drawFn C clock s x y px py).1.strokeTimestamp = s.strokeTimestamp := by
  refine ⟨?_, ?_, ?_, ?_⟩ <;>
    simp [drawFn, h, apply_ite AtramentS.strokeMemory, apply_ite AtramentS.clockIdx,
      apply_ite AtramentS.recordStrokes, apply_ite AtramentS.strokeTimestamp]

/-- C7: with stroke recording enabled, `beginStroke`, three `draw` samples and
`endStroke` emit a recorded stroke of exactly 5 point entries — the start
anchor, the three samples, the end anchor, in order — whose elapsed-time
stamps (relative to the stroke's start) are strictly increasing whenever the
clock is strictly monotone across its successive reads. -/
theorem claim_C7_stroke_recording (clock : ℕ → ℝ) (C : DrawConsts)
    (s0 : AtramentS) (hclock : StrictMono clock) (hrec : s0.recordStrokes = true)
    (hmem : s0.strokeMemory = [])
    (x0 y0 x1 y1 a1 b1 x2 y2 a2 b2 x3 y3 a3 b3 x4 y4 : ℝ) :
    ∃ st : StrokeRec,
      (endStroke clock
          ((drawFn C clock
              ((drawFn C clock
                  ((drawFn C clock (beginStroke clock s0 x0 y0) x1 y1 a1 b1).1)
                  x2 y2 a2 b2).1)
              x3 y3 a3 b3).1)
          x4 y4).2 = some st ∧
      st.points.length = 5 ∧
      st.points.map StrokePoint.point = [⟨x0, y0⟩, ⟨x1, y1⟩, ⟨x2, y2⟩, ⟨x3, y3⟩, ⟨x4, y4⟩] ∧
      List.Chain' (fun p q => p.time < q.time) st.points := by
  have hb : beginStroke clock s0 x0 y0 =
      { s0 with strokeTimestamp := some (clock s0.clockIdx),
                strokeMemory := s0.strokeMemory ++
                  [⟨⟨x0, y0⟩, clock (s0.clockIdx + 1) - clock s0.clockIdx⟩],
                clockIdx := s0.clockIdx + 2 } := by
    rw [beginStroke, if_pos hrec]
  set i := s0.clockIdx with hi
  set s1 := beginStroke clock s0 x0 y0 with hs1
  have f1mem : s1.strokeMemory = [⟨⟨x0, y0⟩, clock (i + 1) - clock i⟩] := by
    rw [hb]; simp [hmem]
  have f1idx : s1.clockIdx = i + 2 := by rw [hb]
  have f1rec : s1.recordStrokes = true := by rw [hb]; exact hrec
  have f1ts : s1.strokeTimestamp = some (clock i) := by rw [hb]
  set s2 := (drawFn C clock s1 x1 y1 a1 b1).1 with hs2
  obtain ⟨f2mem, f2idx, f2rec, f2ts⟩ := drawFn_recording C clock s1 x1 y1 a1 b1 f1rec
  rw [← hs2] at f2mem f2idx f2rec f2ts
  rw [f1mem, f1idx, f1ts] at f2mem
  rw [f1idx] at f2idx
  rw [f1ts] at f2ts
  simp only [Option.getD_some] at f2mem
  set s3 := (drawFn C clock s2 x2 y2 a2 b2).1 with hs3
  obtain ⟨f3mem, f3idx, f3rec, f3ts⟩ := drawFn_recording C clock s2 x2 y2 a2 b2 f2rec
  rw [← hs3] at f3mem f3idx f3rec f3ts
  rw [f2mem, f2idx, f2ts] at f3mem
  rw [f2idx] at f3idx
  rw [f2ts] at f3ts
  simp only [Option.getD_some] at f3mem
  set s4 := (drawFn C clock s3 x3 y3 a3 b3).1 with hs4
  obtain ⟨f4mem, f4idx, f4rec, f4ts⟩ := drawFn_recording C clock s3 x3 y3 a3 b3 f3rec
  rw [← hs4] at f4mem f4idx f4rec f4ts
  rw [f3mem, f3idx, f3ts] at f4mem
  rw [f3idx] at f4idx
  rw [f3ts] at f4ts
  simp only [Option.getD_some] at f4mem
  refine ⟨⟨s4.strokeMemory ++ [⟨⟨x4, y4⟩, clock s4.clockIdx - s4.strokeTimestamp.getD 0⟩],
      s4.mode, s4.weight, s4.smoothing, s4.strokeStyle, s4.adaptiveStroke⟩, ?_, ?_, ?_, ?_⟩
  · rw [endStroke]
    simp only [f4rec, if_true]
  · rw [f4mem]; simp
  · rw [f4mem]; simp
  · rw [f4mem, f4idx, f4ts]
    simp only [Option.getD_some, List.append_assoc, List.cons_append, List.nil_append,
      List.chain'_cons, List.chain'_singleton, and_true]
    have m12 : i + 1 < i + 2 := by omega
    have m23 : i + 2 < i + 3 := by omega
    have m34 : i + 3 < i + 4 := by omega
    have m45 : i + 4 < i + 5 := by omega
    exact ⟨sub_lt_sub_right (hclock m12) _, sub_lt_sub_right (hclock m23) _,
      sub_lt_sub_right (hclock m34) _, sub_lt_sub_right (hclock m45) _⟩

/-- Witness for C7: identity clock (cast to `ℝ`), a concrete recording state,
concrete samples. -/
theorem claim_C7_stroke_recording_witness :
    let s : AtramentS :=
      ⟨0, 1, 1, 1, 11, true, 1, "draw", "source-over", "#000000", true, [],
       none, 0, 0, 0, 0, true, false, 0⟩
    let clock : ℕ → ℝ := fun n => (n : ℝ)
    let C : DrawConsts := ⟨0.85, 1, 10, 0.87, 1, 20, 0.5⟩
    (StrictMono clock ∧ s.recordStrokes = true ∧ s.strokeMemory = []) ∧
    ∃ st : StrokeRec,
      (endStroke clock
          ((drawFn C clock
              ((drawFn C clock
                  ((drawFn C clock (beginStroke clock s 0 0) 1 1 0 0).1)
                  2 2 1 1).1)
              3 3 2 2).1)
          4 4).2 = some st ∧
      st.points.length = 5 ∧
      st.points.map StrokePoint.point = [⟨0, 0⟩, ⟨1, 1⟩, ⟨2, 2⟩, ⟨3, 3⟩, ⟨4, 4⟩] ∧
      List.Chain' (fun p q => p.time < q.time) st.points := by
  refine ⟨⟨Nat.strictMono_cast, rfl, rfl⟩, ?_⟩
  exact claim_C7_stroke_recording _ _ _ Nat.strictMono_cast rfl rfl
    0 0 1 1 0 0 2 2 1 1 3 3 2 2 4 4

/-! ## Fill queue and no-op pass (C4, C10, C2) -/

/-- C4: if the pixel at the floored seed position already matches the fill
color at full opacity (alpha 255) within the matching tolerance, the pass
aborts immediately: the canvas buffer is returned bit-identical (no
`putImageData` commit), `_filling` is reset, and a `fillend` event is still
emitted. -/
theorem claim_C4_noop_fill (tol W H loopFuel fr fg fb alpha fuel : ℕ)
    (s : FillEngine) (x y : ℚ) (sc : Rgba)
    (hmatch : matchColor tol s.data fr fg fb 255
      (pixelPos W (⌊x⌋).toNat (⌊y⌋).toNat) = true) :
    floodFillDrive tol W H loopFuel fr fg fb alpha (fuel + 1) s (x, y, sc) =
      { s with filling := false, events := s.events ++ [FillEvent.fillend],
               passes := s.passes ++ [(x, y, sc)] } := by
  unfold floodFillDrive floodFillStep
  simp [hmatch]

/-- Witness for C4: a 1×1 canvas already holding the fill color `(5,6,7)` at
alpha 255, seed `(0,0)`, exact tolerance. -/
theorem claim_C4_noop_fill_witness :
    (matchColor 0 (fun b => channelOf ⟨5, 6, 7, 255⟩ (b % 4)) 5 6 7 255
      (pixelPos 1 (⌊(0 : ℚ)⌋).toNat (⌊(0 : ℚ)⌋).toNat) = true) ∧
    floodFillDrive 0 1 1 4 5 6 7 255 (3 + 1)
        ⟨true, [], none, fun b => channelOf ⟨5, 6, 7, 255⟩ (b % 4), [], []⟩
        (0, 0, ⟨5, 6, 7, 255⟩) =
      { FillEngine.mk true [] none (fun b => channelOf ⟨5, 6, 7, 255⟩ (b % 4)) [] [] with
          filling := false,
          events := ([] : List FillEvent) ++ [FillEvent.fillend],
          passes := ([] : List (ℚ × ℚ × Rgba)) ++ [(0, 0, ⟨5, 6, 7, 255⟩)] } := by
  refine ⟨by decide, ?_⟩
  exact claim_C4_noop_fill 0 1 1 4 5 6 7 255 3
    ⟨true, [], none, fun b => channelOf ⟨5, 6, 7, 255⟩ (b % 4), [], []⟩ 0 0
    ⟨5, 6, 7, 255⟩ (by decide)

/-- Every complete run of `_floodFill` (with fuel exceeding the queue length)
appends exactly one `fillend` and no `fillstart` to the event trace,
whichever path each pass takes. -/
theorem drive_event_counts (tol W H loopFuel fr fg fb alpha : ℕ) :
    ∀ (fuel : ℕ) (s : FillEngine) (req : ℚ × ℚ × Rgba),
      s.fillStack.length < fuel →
      countFillend (floodFillDrive tol W H loopFuel fr fg fb alpha fuel s req).events =
        countFillend s.events + 1 ∧
      countFillstart (floodFillDrive tol W H loopFuel fr fg fb alpha fuel s req).events =
        countFillstart s.events := by
  intro fuel
  induction fuel with
  | zero => exact fun s req h => absurd h (Nat.not_lt_zero _)
  | succ fuel ih =>
    intro s req h
    unfold floodFillDrive
    cases hres : (floodFillStep tol W H loopFuel fr fg fb alpha s.data req.1 req.2.1 req.2.2).2 with
    | false =>
      simp [hres, countFillend, countFillstart, List.countP_append]
    | true =>
      cases hstack : s.fillStack with
      | nil =>
        simp [hres, hstack, countFillend, countFillstart, List.countP_append]
      | cons next rest =>
        have hlen : rest.length < fuel := by
          rw [hstack] at h
          simp at h
          omega
        simp only [hres, hstack, if_pos]
        exact ih _ next hlen

/-- C10: a `fillstart` event is emitted exactly for a request arriving while
`_filling` is false; a request submitted during an active fill is queued with
no event; and a whole busy period (one `_floodFill` run draining the queue)
emits exactly one `fillend` and no further `fillstart` — the two events
bracket the busy period, not each request. -/
theorem claim_C10_fillstart_bracket (tol W H loopFuel fr fg fb alpha : ℕ)
    (s : FillEngine) (x y : ℚ) (req : ℚ × ℚ × Rgba) (fuel : ℕ) :
    (s.filling = true →
      (fillOp W s x y).events = s.events ∧
      (fillOp W s x y).fillStack =
        s.fillStack ++ [(x, y, readPixel W s.data (⌊x⌋).toNat (⌊y⌋).toNat)]) ∧
    (s.filling = false →
      (fillOp W s x y).events = s.events ++ [FillEvent.fillstart x y] ∧
      (fillOp W s x y).fillStack = s.fillStack) ∧
    (s.fillStack.length < fuel →
      countFillend (floodFillDrive tol W H loopFuel fr fg fb alpha fuel s req).events =
        countFillend s.events + 1 ∧
      countFillstart (floodFillDrive tol W H loopFuel fr fg fb alpha fuel s req).events =
        countFillstart s.events) := by
  refine ⟨fun hf => ?_, fun hf => ?_,
    fun hf => drive_event_counts tol W H loopFuel fr fg fb alpha fuel s req hf⟩
  · constructor <;> simp [fillOp, hf]
  · constructor <;> simp [fillOp, hf]

/-- Witness for C10: a busy engine queues silently, an idle engine emits
`fillstart`, and a drive over an empty queue emits exactly one `fillend`. -/
theorem claim_C10_fillstart_bracket_witness :
    ((FillEngine.mk true [] none (fun _ => 0) [] []).filling = true ∧
     (FillEngine.mk false [] none (fun _ => 0) [] []).filling = false ∧
     (FillEngine.mk false [] none (fun _ => 0) [] []).fillStack.length < 1) ∧
    ((fillOp 1 ⟨true, [], none, fun _ => 0, [], []⟩ 3 4).events =
        (FillEngine.mk true [] none (fun _ => 0) [] []).events ∧
      (fillOp 1 ⟨true, [], none, fun _ => 0, [], []⟩ 3 4).fillStack =
        (FillEngine.mk true [] none (fun _ => 0) [] []).fillStack ++
          [(3, 4, readPixel 1 (fun _ => 0) (⌊(3 : ℚ)⌋).toNat (⌊(4 : ℚ)⌋).toNat)]) ∧
    ((fillOp 1 ⟨false, [], none, fun _ => 0, [], []⟩ 3 4).events =
        (FillEngine.mk false [] none (fun _ => 0) [] []).events ++ [FillEvent.fillstart 3 4] ∧
      (fillOp 1 ⟨false, [], none, fun _ => 0, [], []⟩ 3 4).fillStack =
        (FillEngine.mk false [] none (fun _ => 0) [] []).fillStack) ∧
    (countFillend (floodFillDrive 0 1 1 4 9 9 9 255 1
        ⟨false, [], none, fun _ => 0, [], []⟩ (0, 0, ⟨0, 0, 0, 0⟩)).events =
      countFillend (FillEngine.mk false [] none (fun _ => 0) [] []).events + 1 ∧
     countFillstart (floodFillDrive 0 1 1 4 9 9 9 255 1
        ⟨false, [], none, fun _ => 0, [], []⟩ (0, 0, ⟨0, 0, 0, 0⟩)).events =
      countFillstart (FillEngine.mk false [] none (fun _ => 0) [] []).events) := by
  refine ⟨⟨rfl, rfl, by decide⟩, ?_, ?_, ?_⟩
  · exact (claim_C10_fillstart_bracket 0 1 1 4 9 9 9 255
      ⟨true, [], none, fun _ => 0, [], []⟩ 3 4 (0, 0, ⟨0, 0, 0, 0⟩) 1).1 rfl
  · exact (claim_C10_fillstart_bracket 0 1 1 4 9 9 9 255
      ⟨false, [], none, fun _ => 0, [], []⟩ 3 4 (0, 0, ⟨0, 0, 0, 0⟩) 1).2.1 rfl
  · exact (claim_C10_fillstart_bracket 0 1 1 4 9 9 9 255
      ⟨false, [], none, fun _ => 0, [], []⟩ 3 4 (0, 0, ⟨0, 0, 0, 0⟩) 1).2.2 (by decide)

/-- C2 fails on the code: request `A` on a 1×1 canvas already holding the
fill color `(1,2,3)` at alpha 255 starts a fill (`fillstart`), request `B`
arrives while `A` is in flight and is queued; `A`'s pass takes the same-color
early return, which resets `_filling` and emits `fillend` *without consulting
`_fillStack`* — the run ends with `B` still queued and never executed (the
pass trace holds only `A`), so a queued request is dropped. -/
theorem claim_C2_noop_drops_queued_request :
    (fillOp 1 ⟨false, [], none, fun b => channelOf ⟨1, 2, 3, 255⟩ (b % 4), [], []⟩
        0 0).events = [FillEvent.fillstart 0 0] ∧
    (fillOp 1 (fillOp 1 ⟨false, [], none, fun b => channelOf ⟨1, 2, 3, 255⟩ (b % 4), [], []⟩ 0 0)
        0 0).fillStack = [(0, 0, ⟨1, 2, 3, 255⟩)] ∧
    (fireTimeout 0 1 1 4 1 2 3 255 5
        (fillOp 1 (fillOp 1 ⟨false, [], none, fun b => channelOf ⟨1, 2, 3, 255⟩ (b % 4), [], []⟩ 0 0)
          0 0) 0 0).filling = false ∧
    (fireTimeout 0 1 1 4 1 2 3 255 5
        (fillOp 1 (fillOp 1 ⟨false, [], none, fun b => channelOf ⟨1, 2, 3, 255⟩ (b % 4), [], []⟩ 0 0)
          0 0) 0 0).events = [FillEvent.fillstart 0 0, FillEvent.fillend] ∧
    (fireTimeout 0 1 1 4 1 2 3 255 5
        (fillOp 1 (fillOp 1 ⟨false, [], none, fun b => channelOf ⟨1, 2, 3, 255⟩ (b % 4), [], []⟩ 0 0)
          0 0) 0 0).fillStack = [(0, 0, ⟨1, 2, 3, 255⟩)] ∧
    (fireTimeout 0 1 1 4 1 2 3 255 5
        (fillOp 1 (fillOp 1 ⟨false, [], none, fun b => channelOf ⟨1, 2, 3, 255⟩ (b % 4), [], []⟩ 0 0)
          0 0) 0 0).passes = [(0, 0, ⟨1, 2, 3, 255⟩)] := by
  refine ⟨?_, ?_, ?_, ?_, ?_, ?_⟩ <;> decide

/-! ## Flood-fill completeness on a rectangle (C1): byte-level groundwork -/

/-- The blend is a flat overwrite at full alpha. -/
theorem blendChannel_255 (old c : ℕ) : blendChannel old c 255 = c := by
  unfold blendChannel; omega

/-- Dividing a byte offset inside a pixel recovers the pixel index and the
channel. -/
theorem pixelPos_add_div (W x y k : ℕ) (hk : k < 4) :
    (pixelPos W x y + k) / 4 = y * W + x ∧ (pixelPos W x y + k) % 4 = k := by
  unfold pixelPos; omega

/-- Row-major pixel indices decompose uniquely. -/
theorem rowcol (W x y : ℕ) (hx : x < W) :
    (y * W + x) % W = x ∧ (y * W + x) / W = y := by
  have hW : 0 < W := Nat.pos_of_ne_zero (by omega)
  constructor
  · rw [Nat.mul_comm, Nat.mul_add_mod, Nat.mod_eq_of_lt hx]
  · rw [Nat.mul_comm, Nat.mul_add_div hW, Nat.div_eq_of_lt hx, add_zero]

/-- Reading a byte of a marked buffer at a pixel's offset. -/
theorem markData_read (W : ℕ) (base : ℕ → ℕ) (S : ℕ → ℕ → Bool) (f : Rgba)
    (x y k : ℕ) (hx : x < W) (hk : k < 4) :
    markData W base S f (pixelPos W x y + k) =
      if S x y then channelOf f k else base (pixelPos W x y + k) := by
  unfold markData
  rw [(pixelPos_add_div W x y k hk).1, (pixelPos_add_div W x y k hk).2,
    (rowcol W x y hx).1, (rowcol W x y hx).2]

/-- Reading a byte of the rectangle buffer at a pixel's offset. -/
theorem rectData_read (W : ℕ) (c1 c2 : Rgba) (x0 x1 y0 y1 x y k : ℕ)
    (hx : x < W) (hk : k < 4) :
    rectData W c1 c2 x0 x1 y0 y1 (pixelPos W x y + k) =
      channelOf (if inR x0 x1 y0 y1 x y then c1 else c2) k := by
  unfold rectData
  rw [(pixelPos_add_div W x y k hk).1, (pixelPos_add_div W x y k hk).2,
    (rowcol W x y hx).1, (rowcol W x y hx).2]

/-- Marked buffers built from pointwise-equal pixel sets are equal. -/
theorem markData_congr (W : ℕ) (base : ℕ → ℕ) (S S' : ℕ → ℕ → Bool) (f : Rgba)
    (h : ∀ u v, S u v = S' u v) : markData W base S f = markData W base S' f := by
  funext b
  unfold markData
  rw [h]

/-- `matchColor` at a pixel's offset is the whole-color tolerance test. -/
theorem matchColor_readPixel (tol : ℕ) (data : ℕ → ℕ) (r g b a W x y : ℕ) :
    matchColor tol data r g b a (pixelPos W x y) =
      matchRgba tol (readPixel W data x y) ⟨r, g, b, a⟩ := rfl

/-- Tolerance matching is reflexive. -/
theorem matchRgba_refl (tol : ℕ) (c : Rgba) : matchRgba tol c c = true := by
  simp [matchRgba, Nat.dist_self]

/-- Tolerance matching is symmetric. -/
theorem matchRgba_comm (tol : ℕ) (p q : Rgba) :
    matchRgba tol p q = matchRgba tol q p := by
  unfold matchRgba
  rw [Nat.dist_comm p.r, Nat.dist_comm p.g, Nat.dist_comm p.b, Nat.dist_comm p.a]

/-- The whole pixel read from a marked buffer. -/
theorem readPixel_markData (W : ℕ) (base : ℕ → ℕ) (S : ℕ → ℕ → Bool) (f : Rgba)
    (x y : ℕ) (hx : x < W) :
    readPixel W (markData W base S f) x y =
      if S x y then f else readPixel W base x y := by
  have h0 := markData_read W base S f x y 0 hx (by omega)
  have h1 := markData_read W base S f x y 1 hx (by omega)
  have h2 := markData_read W base S f x y 2 hx (by omega)
  have h3 := markData_read W base S f x y 3 hx (by omega)
  rw [add_zero] at h0
  unfold readPixel
  rw [h0, h1, h2, h3]
  by_cases hS : S x y <;> simp [hS, channelOf, readPixel]

/-- The whole pixel read from the rectangle buffer. -/
theorem readPixel_rectData (W : ℕ) (c1 c2 : Rgba) (x0 x1 y0 y1 x y : ℕ)
    (hx : x < W) :
    readPixel W (rectData W c1 c2 x0 x1 y0 y1) x y =
      if inR x0 x1 y0 y1 x y then c1 else c2 := by
  have h0 := rectData_read W c1 c2 x0 x1 y0 y1 x y 0 hx (by omega)
  have h1 := rectData_read W c1 c2 x0 x1 y0 y1 x y 1 hx (by omega)
  have h2 := rectData_read W c1 c2 x0 x1 y0 y1 x y 2 hx (by omega)
  have h3 := rectData_read W c1 c2 x0 x1 y0 y1 x y 3 hx (by omega)
  rw [add_zero] at h0
  unfold readPixel
  rw [h0, h1, h2, h3]
  by_cases hin : inR x0 x1 y0 y1 x y <;> simp [hin, channelOf]

/-- Coloring one pixel of a marked buffer at full alpha marks that pixel. -/
theorem colorPixel_markData (W : ℕ) (base : ℕ → ℕ) (S : ℕ → ℕ → Bool)
    (fr fg fb : ℕ) (sc : Rgba) (x y : ℕ) (hx : x < W) :
    colorPixel (markData W base S ⟨fr, fg, fb, 255⟩) fr fg fb sc 255 (pixelPos W x y) =
      markData W base
        (fun u v => S u v || (decide (u = x) && decide (v = y))) ⟨fr, fg, fb, 255⟩ := by
  funext b
  unfold colorPixel
  rw [Function.update_apply, Function.update_apply, Function.update_apply,
    Function.update_apply]
  by_cases h3 : b = pixelPos W x y + 3
  · rw [if_pos h3, h3, markData_read W base _ _ x y 3 hx (by omega)]
    simp [channelOf]
  rw [if_neg h3]
  by_cases h2 : b = pixelPos W x y + 2
  · rw [if_pos h2, h2, blendChannel_255,
      markData_read W base _ _ x y 2 hx (by omega)]
    simp [channelOf]
  rw [if_neg h2]
  by_cases h1 : b = pixelPos W x y + 1
  · rw [if_pos h1, h1, blendChannel_255,
      markData_read W base _ _ x y 1 hx (by omega)]
    simp [channelOf]
  rw [if_neg h1]
  by_cases h0 : b = pixelPos W x y
  · rw [if_pos h0, h0, blendChannel_255]
    have := markData_read W base (fun u v => S u v || (decide (u = x) && decide (v = y)))
      ⟨fr, fg, fb, 255⟩ x y 0 hx (by omega)
    rw [add_zero] at this
    rw [this]
    simp [channelOf]
  rw [if_neg h0]
  have hbx : ¬(b / 4 % W = x ∧ b / 4 / W = y) := by
    rintro ⟨hxx, hyy⟩
    have hdm : W * (b / 4 / W) + b / 4 % W = b / 4 := Nat.div_add_mod _ _
    have hb4 : b / 4 = W * y + x := by rw [← hxx, ← hyy]; omega
    have hk4 : b % 4 < 4 := Nat.mod_lt _ (by omega)
    have hpp : pixelPos W x y = (W * y + x) * 4 := by unfold pixelPos; ring
    rw [hpp] at h0 h1 h2 h3
    omega
  unfold markData
  have hSS : (S (b / 4 % W) (b / 4 / W) ||
      (decide (b / 4 % W = x) && decide (b / 4 / W = y))) = S (b / 4 % W) (b / 4 / W) := by
    by_cases hxx : b / 4 % W = x
    · have hyy : b / 4 / W ≠ y := fun hy => hbx ⟨hxx, hy⟩
      simp [hxx, hyy]
    · simp [hxx]
  simp only [hSS]

/-- Evaluation of `matchColor` against the start color `c1` on any marked
rectangle buffer: a pixel matches exactly when it lies in the rectangle and
has not been recolored (given that the background and the fill pixel are
distinguishable from `c1` under the tolerance). -/
theorem match_eval (tol W : ℕ) (c1 c2 : Rgba) (x0 x1 y0 y1 fr fg fb : ℕ)
    (S : ℕ → ℕ → Bool) (x y : ℕ) (hx : x < W)
    (hback : matchRgba tol c2 c1 = false)
    (hfill : matchRgba tol ⟨fr, fg, fb, 255⟩ c1 = false) :
    matchColor tol (markData W (rectData W c1 c2 x0 x1 y0 y1) S ⟨fr, fg, fb, 255⟩)
      c1.r c1.g c1.b c1.a (pixelPos W x y) =
      (decide (inR x0 x1 y0 y1 x y) && !(S x y)) := by
  rw [matchColor_readPixel, show (⟨c1.r, c1.g, c1.b, c1.a⟩ : Rgba) = c1 from rfl,
    readPixel_markData W _ S _ x y hx]
  by_cases hS : S x y
  · simp [hS, hfill]
  · rw [readPixel_rectData W c1 c2 x0 x1 y0 y1 x y hx]
    by_cases hin : inR x0 x1 y0 y1 x y
    · simp [hS, hin, matchRgba_refl]
    · simp [hS, hin, hback]

/-- Evaluation of `matchColor` on a fully-column-marked rectangle buffer. -/
theorem match_colsBuf (tol W : ℕ) (c1 c2 : Rgba) (x0 x1 y0 y1 fr fg fb : ℕ)
    (P : ℕ → Bool) (x y : ℕ) (hx : x < W)
    (hback : matchRgba tol c2 c1 = false)
    (hfill : matchRgba tol ⟨fr, fg, fb, 255⟩ c1 = false) :
    matchColor tol (colsBuf W c1 c2 x0 x1 y0 y1 fr fg fb P)
      c1.r c1.g c1.b c1.a (pixelPos W x y) =
      (decide (inR x0 x1 y0 y1 x y) && !P x) := by
  rw [colsBuf, match_eval tol W c1 c2 x0 x1 y0 y1 fr fg fb _ x y hx hback hfill]
  by_cases hin : inR x0 x1 y0 y1 x y <;> by_cases hP : P x <;> simp [hin, hP]

/-- A seed row that does not match sends the upward walk one row below it. -/
theorem scanUp_false (m : ℕ → Bool) (y : ℕ) (h : m y = false) :
    scanUp m y = y + 1 := by
  cases y <;> simp [scanUp, h]

/-- The upward walk stops at the top `t` of the matching run containing the
seed row: all rows in `[t..y]` match and either `t` is the top edge or the
row above `t` does not match. -/
theorem scanUp_run (m : ℕ → Bool) (t : ℕ) (ht : t = 0 ∨ m (t - 1) = false) :
    ∀ y, t ≤ y → (∀ v, t ≤ v → v ≤ y → m v = true) → scanUp m y = t := by
  intro y
  induction y with
  | zero =>
    intro hty hm
    have ht0 : t = 0 := Nat.le_zero.mp hty
    subst ht0
    simp [scanUp, hm 0 le_rfl le_rfl]
  | succ y ih =>
    intro hty hm
    rcases Nat.eq_or_lt_of_le hty with heq | hlt
    · have hmy : m y = false := by
        rcases ht with h0 | hf
        · omega
        · have : t - 1 = y := by omega
          rwa [this] at hf
      simp only [scanUp, hm (y + 1) hty le_rfl, if_true]
      rw [scanUp_false m y hmy]
      omega
    · have hty' : t ≤ y := Nat.lt_succ_iff.mp hlt
      simp only [scanUp, hm (y + 1) (by omega) le_rfl, if_true]
      exact ih hty' (fun v hv1 hv2 => hm v hv1 (by omega))

/-- Coloring pixel `(x, r)` of a partially-scanned column buffer extends the
colored run by one row. -/
theorem colorPixel_colsBufPart (W : ℕ) (c1 c2 : Rgba) (x0 x1 y0 y1 fr fg fb : ℕ)
    (P : ℕ → Bool) (sc : Rgba) (x r : ℕ) (hxW : x < W) (hy0r : y0 ≤ r)
    (hPx : P x = false) :
    colorPixel (colsBufPart W c1 c2 x0 x1 y0 y1 fr fg fb P x r) fr fg fb sc 255
      (pixelPos W x r) =
    colsBufPart W c1 c2 x0 x1 y0 y1 fr fg fb P x (r + 1) := by
  unfold colsBufPart
  rw [colorPixel_markData W _ _ fr fg fb sc x r hxW]
  apply markData_congr
  intro u v
  by_cases hu : u = x
  · subst hu
    rw [hPx, show decide (u = u) = true from by simp]
    simp only [Bool.false_and, Bool.false_or, Bool.true_and]
    simp only [← Bool.decide_and, ← Bool.decide_or]
    exact decide_eq_decide.mpr (by omega)
  · simp [hu]

/-- Matching the left neighbor `(x - 1, r)` during the downward scan of
column `x` (already colored on rows `y0..r`): the outcome coincides with the
push condition `x0 < x ∧ ¬P (x-1)`, for every scanned row `r ∈ [y0..y1]`. -/
theorem match_left_colsBufPart (tol W : ℕ) (c1 c2 : Rgba)
    (x0 x1 y0 y1 fr fg fb : ℕ) (P : ℕ → Bool) (x r r' : ℕ)
    (hx01 : x0 ≤ x1) (hx1W : x1 < W) (hxx1 : x ≤ x1)
    (hy0r : y0 ≤ r) (hry1 : r ≤ y1) (hrr' : r < r')
    (hback : matchRgba tol c2 c1 = false)
    (hfill : matchRgba tol ⟨fr, fg, fb, 255⟩ c1 = false) :
    matchColor tol (colsBufPart W c1 c2 x0 x1 y0 y1 fr fg fb P x r')
      c1.r c1.g c1.b c1.a (pixelPos W (x - 1) r) =
      (decide (x0 < x) && !P (x - 1)) := by
  unfold colsBufPart
  rw [match_eval tol W c1 c2 x0 x1 y0 y1 fr fg fb _ (x - 1) r (by omega) hback hfill]
  rcases Nat.eq_zero_or_pos x with hx0 | hx0
  · subst hx0
    have hS : ((P (0 - 1) && decide (inR x0 x1 y0 y1 (0 - 1) r)) ||
        (decide ((0 : ℕ) - 1 = 0) && decide (y0 ≤ r) && decide (r < r'))) = true := by
      simp [hy0r, hrr']
    simp only [hS, Bool.not_true, Bool.and_false]
    simp
    exact fun _ _ => ⟨hy0r, hrr'⟩
  · have hne' : decide (x - 1 = x) = false := decide_eq_false (by omega)
    have hin : decide (inR x0 x1 y0 y1 (x - 1) r) = decide (x0 < x) := by
      refine decide_eq_decide.mpr ?_
      unfold inR
      omega
    simp only [hne', Bool.false_and, Bool.and_false, Bool.or_false, hin]
    cases hA : decide (x0 < x) <;> cases hB : P (x - 1) <;> simp

/-- Matching the right neighbor `(x + 1, r)` during the downward scan of
column `x`: the outcome coincides with the push condition
`x < x1 ∧ ¬P (x+1)`. -/
theorem match_right_colsBufPart (tol W : ℕ) (c1 c2 : Rgba)
    (x0 x1 y0 y1 fr fg fb : ℕ) (P : ℕ → Bool) (x r r' : ℕ)
    (hx01 : x0 ≤ x1) (hx1W : x1 < W) (hxx0 : x0 ≤ x)
    (hy0r : y0 ≤ r) (hry1 : r ≤ y1)
    (hxW : x + 1 < W)
    (hback : matchRgba tol c2 c1 = false)
    (hfill : matchRgba tol ⟨fr, fg, fb, 255⟩ c1 = false) :
    matchColor tol (colsBufPart W c1 c2 x0 x1 y0 y1 fr fg fb P x r')
      c1.r c1.g c1.b c1.a (pixelPos W (x + 1) r) =
      (decide (x < x1) && !P (x + 1)) := by
  unfold colsBufPart
  rw [match_eval tol W c1 c2 x0 x1 y0 y1 fr fg fb _ (x + 1) r hxW hback hfill]
  have hne' : decide (x + 1 = x) = false := decide_eq_false (by omega)
  have hin : decide (inR x0 x1 y0 y1 (x + 1) r) = decide (x < x1) := by
    refine decide_eq_decide.mpr ?_
    unfold inR
    omega
  simp only [hne', Bool.false_and, Bool.and_false, Bool.or_false, hin]
  cases hA : decide (x < x1) <;> cases hB : P (x + 1) <;> simp

/-- The `reachLeft`/`reachRight` bookkeeping of one scanned row: when the
neighbor's match outcome coincides with the current flag, the row neither
pushes a seed nor changes the flag. -/
theorem reach_step (g : Prop) [Decidable g] (b : Bool) (p : ℕ × ℕ)
    (stack : List (ℕ × ℕ)) :
    (if g then
        (if b = true then
          (if b = false then ((p :: stack), true) else (stack, b))
        else (stack, false))
      else (stack, b)) = (stack, b) := by
  by_cases hg : g
  · cases b <;> simp [hg]
  · simp [hg]

/-- Variant of `reach_step` after the boundary guard has been discharged. -/
theorem reach_step_inner (b : Bool) (p : ℕ × ℕ) (stack : List (ℕ × ℕ)) :
    (if b = true then
        (if b = false then ((p :: stack), true) else (stack, b))
      else (stack, false)) = (stack, b) := by
  cases b <;> simp

/-- Middle rows of the downward scan over an uncolored column `x` of the
rectangle: from row `r` (the rows `y0..r-1` already colored, both reach flags
agreeing with the push conditions), the scan colors the remaining rows
`r..y1`, pushes nothing further, and stops below the rectangle. -/
theorem downScan_mid (tol W H : ℕ) (c1 c2 : Rgba) (x0 x1 y0 y1 fr fg fb : ℕ)
    (hx01 : x0 ≤ x1) (hx1W : x1 < W) (hy1H : y1 < H)
    (hback : matchRgba tol c2 c1 = false)
    (hfill : matchRgba tol ⟨fr, fg, fb, 255⟩ c1 = false)
    (P : ℕ → Bool) (x : ℕ) (hxx0 : x0 ≤ x) (hxx1 : x ≤ x1) (hPx : P x = false) :
    ∀ d r, r + d = y1 + 1 → y0 < r →
    ∀ stack : List (ℕ × ℕ),
      downScan tol W H c1 fr fg fb 255
        (colsBufPart W c1 c2 x0 x1 y0 y1 fr fg fb P x r) x r
        (decide (x0 < x) && !P (x - 1)) (decide (x < x1) && !P (x + 1)) stack =
      (colsBuf W c1 c2 x0 x1 y0 y1 fr fg fb (fun u => P u || decide (u = x)), stack) := by
  intro d
  induction d with
  | zero =>
    intro r hr hy0r stack
    have hry : r = y1 + 1 := by omega
    subst hry
    have hmF : matchColor tol (colsBufPart W c1 c2 x0 x1 y0 y1 fr fg fb P x (y1 + 1))
        c1.r c1.g c1.b c1.a (pixelPos W x (y1 + 1)) = false := by
      unfold colsBufPart
      rw [match_eval tol W c1 c2 x0 x1 y0 y1 fr fg fb _ x (y1 + 1) (by omega) hback hfill]
      have hin : decide (inR x0 x1 y0 y1 x (y1 + 1)) = false :=
        decide_eq_false (by unfold inR; omega)
      simp [hin]
    rw [downScan, dif_neg (fun hc => by rw [hmF] at hc; exact Bool.false_ne_true hc.2)]
    have hcong : colsBufPart W c1 c2 x0 x1 y0 y1 fr fg fb P x (y1 + 1) =
        colsBuf W c1 c2 x0 x1 y0 y1 fr fg fb (fun u => P u || decide (u = x)) := by
      unfold colsBufPart colsBuf
      apply markData_congr
      intro u v
      by_cases hu : u = x
      · subst hu
        refine Bool.coe_iff_coe.mp ?_
        simp only [Bool.or_eq_true, Bool.and_eq_true, decide_eq_true_eq, hPx,
          Bool.false_eq_true, false_and, false_or, or_false, true_and, and_true]
        unfold inR
        omega
      · simp [hu]
    rw [hcong]
  | succ d ih =>
    intro r hr hy0r stack
    have hry1 : r ≤ y1 := by omega
    have hmT : matchColor tol (colsBufPart W c1 c2 x0 x1 y0 y1 fr fg fb P x r)
        c1.r c1.g c1.b c1.a (pixelPos W x r) = true := by
      unfold colsBufPart
      rw [match_eval tol W c1 c2 x0 x1 y0 y1 fr fg fb _ x r (by omega) hback hfill]
      have h1 : decide (inR x0 x1 y0 y1 x r) = true :=
        decide_eq_true (by exact ⟨hxx0, hxx1, by omega, by omega⟩)
      have h2 : decide (r < r) = false := decide_eq_false (by omega)
      simp [h1, h2, hPx]
    rw [downScan, dif_pos ⟨show r < H by omega, hmT⟩]
    simp only [colorPixel_colsBufPart W c1 c2 x0 x1 y0 y1 fr fg fb P c1 x r
        (show x < W by omega) (show y0 ≤ r by omega) hPx,
      match_left_colsBufPart tol W c1 c2 x0 x1 y0 y1 fr fg fb P x r (r + 1)
        hx01 hx1W hxx1 (show y0 ≤ r by omega) hry1 (Nat.lt_succ_self r) hback hfill]
    rw [reach_step]
    by_cases hxg : x < W - 1
    · simp only [match_right_colsBufPart tol W c1 c2 x0 x1 y0 y1 fr fg fb P x r (r + 1)
        hx01 hx1W hxx0 (show y0 ≤ r by omega) hry1 (show x + 1 < W by omega) hback hfill,
        if_pos hxg]
      rw [reach_step_inner]
      exact ih (r + 1) (by omega) (by omega) stack
    · rw [if_neg hxg]
      exact ih (r + 1) (by omega) (by omega) stack

/-- The first scanned row of a column: the `reach` flag starts false, so a
matching neighbor pushes exactly one seed and sets the flag. -/
theorem reach_entry (g : Prop) [Decidable g] (b : Bool) (hgb : b = true → g)
    (p : ℕ × ℕ) (stack : List (ℕ × ℕ)) :
    (if g then
        (if b = true then ((p :: stack), true) else (stack, false))
      else (stack, false)) =
    ((if b = true then [p] else []) ++ stack, b) := by
  by_cases hg : g
  · cases b <;> simp [hg]
  · have hb : b = false := by
      cases hbv : b
      · rfl
      · exact absurd (hgb hbv) hg
    rw [hb]
    simp [hg]

/-- A push guarded only by the match outcome `b` (the boundary guard already
discharged). -/
theorem push_if (b : Bool) (p : ℕ × ℕ) (L : List (ℕ × ℕ)) :
    (if b = true then ((p :: L), true) else (L, false)) =
    ((if b = true then [p] else []) ++ L, b) := by
  cases b <;> simp

/-- The whole downward scan of an uncolored column `x` of the rectangle,
entered at the top row `y0` with both reach flags false: it colors the whole
column, pushes the left neighbor seed `(x-1, y0)` exactly when column `x-1`
is in the rectangle and uncolored (right analogously, pushed on top), and
leaves the rest of the stack untouched. -/
theorem downScan_entry (tol W H : ℕ) (c1 c2 : Rgba) (x0 x1 y0 y1 fr fg fb : ℕ)
    (hx01 : x0 ≤ x1) (hx1W : x1 < W) (hy01 : y0 ≤ y1) (hy1H : y1 < H)
    (hback : matchRgba tol c2 c1 = false)
    (hfill : matchRgba tol ⟨fr, fg, fb, 255⟩ c1 = false)
    (P : ℕ → Bool) (x : ℕ) (hxx0 : x0 ≤ x) (hxx1 : x ≤ x1) (hPx : P x = false)
    (stack : List (ℕ × ℕ)) :
    downScan tol W H c1 fr fg fb 255
      (colsBuf W c1 c2 x0 x1 y0 y1 fr fg fb P) x y0 false false stack =
    (colsBuf W c1 c2 x0 x1 y0 y1 fr fg fb (fun u => P u || decide (u = x)),
      (if (decide (x < x1) && !P (x + 1)) = true then [(x + 1, y0)] else []) ++
      ((if (decide (x0 < x) && !P (x - 1)) = true then [(x - 1, y0)] else []) ++ stack)) := by
  have h0 : colsBuf W c1 c2 x0 x1 y0 y1 fr fg fb P =
      colsBufPart W c1 c2 x0 x1 y0 y1 fr fg fb P x y0 := by
    unfold colsBuf colsBufPart
    apply markData_congr
    intro u v
    have hz : (decide (u = x) && decide (y0 ≤ v) && decide (v < y0)) = false := by
      by_cases h1 : y0 ≤ v <;> by_cases h2 : v < y0 <;> simp [h1, h2] <;> omega
    rw [hz, Bool.or_false]
  have hmT : matchColor tol (colsBufPart W c1 c2 x0 x1 y0 y1 fr fg fb P x y0)
      c1.r c1.g c1.b c1.a (pixelPos W x y0) = true := by
    unfold colsBufPart
    rw [match_eval tol W c1 c2 x0 x1 y0 y1 fr fg fb _ x y0 (by omega) hback hfill]
    have h1 : decide (inR x0 x1 y0 y1 x y0) = true :=
      decide_eq_true ⟨hxx0, hxx1, le_rfl, hy01⟩
    have h2 : decide (y0 < y0) = false := decide_eq_false (by omega)
    simp [h1, h2, hPx]
  rw [h0, downScan, dif_pos ⟨show y0 < H by omega, hmT⟩]
  simp only [colorPixel_colsBufPart W c1 c2 x0 x1 y0 y1 fr fg fb P c1 x y0
      (show x < W by omega) le_rfl hPx,
    match_left_colsBufPart tol W c1 c2 x0 x1 y0 y1 fr fg fb P x y0 (y0 + 1)
      hx01 hx1W hxx1 le_rfl hy01 (Nat.lt_succ_self y0) hback hfill, if_true]
  rw [reach_entry (0 < x) (decide (x0 < x) && !P (x - 1))
    (fun h => by
      simp only [Bool.and_eq_true, decide_eq_true_eq] at h
      omega) (x - 1, y0) stack]
  by_cases hxg : x < W - 1
  · simp only [match_right_colsBufPart tol W c1 c2 x0 x1 y0 y1 fr fg fb P x y0 (y0 + 1)
      hx01 hx1W hxx0 le_rfl hy01 (show x + 1 < W by omega) hback hfill,
      if_pos hxg, if_true]
    rw [push_if]
    exact downScan_mid tol W H c1 c2 x0 x1 y0 y1 fr fg fb hx01 hx1W hy1H hback hfill
      P x hxx0 hxx1 hPx (y1 - y0) (y0 + 1) (by omega) (by omega) _
  · have hlR : (decide (x < x1) && !P (x + 1)) = false := by
      have hx1' : ¬(x < x1) := by omega
      simp [hx1']
    rw [if_neg hxg, hlR]
    simp only [Bool.false_eq_true, if_false, List.nil_append]
    have hmid := downScan_mid tol W H c1 c2 x0 x1 y0 y1 fr fg fb hx01 hx1W hy1H hback hfill
      P x hxx0 hxx1 hPx (y1 - y0) (y0 + 1) (by omega) (by omega)
      ((if (decide (x0 < x) && !P (x - 1)) = true then [(x - 1, y0)] else []) ++ stack)
    rw [hlR] at hmid
    exact hmid

/-- Popping a seed in an already-colored column is a no-op: the seed row no
longer matches, the upward walk stops one row below it, and the downward scan
stops immediately. -/
theorem pop_stale (tol W H : ℕ) (c1 c2 : Rgba) (x0 x1 y0 y1 fr fg fb : ℕ)
    (hback : matchRgba tol c2 c1 = false)
    (hfill : matchRgba tol ⟨fr, fg, fb, 255⟩ c1 = false)
    (P : ℕ → Bool) (x y : ℕ) (hxW : x < W) (hPx : P x = true)
    (stack : List (ℕ × ℕ)) :
    downScan tol W H c1 fr fg fb 255 (colsBuf W c1 c2 x0 x1 y0 y1 fr fg fb P) x
      (scanUp (fun v => matchColor tol (colsBuf W c1 c2 x0 x1 y0 y1 fr fg fb P)
        c1.r c1.g c1.b c1.a (pixelPos W x v)) y)
      false false stack =
    (colsBuf W c1 c2 x0 x1 y0 y1 fr fg fb P, stack) := by
  have hm : ∀ v, matchColor tol (colsBuf W c1 c2 x0 x1 y0 y1 fr fg fb P)
      c1.r c1.g c1.b c1.a (pixelPos W x v) = false := by
    intro v
    rw [match_colsBuf tol W c1 c2 x0 x1 y0 y1 fr fg fb P x v hxW hback hfill, hPx]
    simp
  rw [scanUp_false _ y (hm y), downScan,
    dif_neg (fun hc => by rw [hm (y + 1)] at hc; exact Bool.false_ne_true hc.2)]

/-- From any seed row inside the rectangle on an uncolored column, the upward
walk of `_floodFill` stops exactly at the rectangle's top row `y0`. -/
theorem scanUp_rect (tol W : ℕ) (c1 c2 : Rgba) (x0 x1 y0 y1 fr fg fb : ℕ)
    (hx1W : x1 < W)
    (hback : matchRgba tol c2 c1 = false)
    (hfill : matchRgba tol ⟨fr, fg, fb, 255⟩ c1 = false)
    (P : ℕ → Bool) (x y : ℕ) (hxx0 : x0 ≤ x) (hxx1 : x ≤ x1) (hPx : P x = false)
    (hy0y : y0 ≤ y) (hyy1 : y ≤ y1) :
    scanUp (fun v => matchColor tol (colsBuf W c1 c2 x0 x1 y0 y1 fr fg fb P)
      c1.r c1.g c1.b c1.a (pixelPos W x v)) y = y0 := by
  refine scanUp_run _ y0 ?_ y hy0y ?_
  · rcases Nat.eq_zero_or_pos y0 with h0 | h0
    · exact Or.inl h0
    · refine Or.inr ?_
      rw [match_colsBuf tol W c1 c2 x0 x1 y0 y1 fr fg fb P x (y0 - 1) (by omega) hback hfill]
      rw [decide_eq_false (show ¬inR x0 x1 y0 y1 x (y0 - 1) from by unfold inR; omega)]
      simp
  · intro v hv1 hv2
    rw [match_colsBuf tol W c1 c2 x0 x1 y0 y1 fr fg fb P x v (by omega) hback hfill]
    rw [decide_eq_true (show inR x0 x1 y0 y1 x v from ⟨hxx0, hxx1, hv1, by omega⟩), hPx]
    simp

/-- The stack-loop invariant of `_floodFill` on the rectangle scenario: with
a contiguous interval `[a..b]` of columns already colored, every stack entry
inside the rectangle and within one column of the interval, and the two
frontier seeds `(a-1, y0)`, `(b+1, y0)` on the stack whenever the interval
has not yet reached the respective rectangle edge, the loop colors exactly
the remaining columns and ends with an empty stack. -/
theorem floodFillLoop_inv (tol W H : ℕ) (c1 c2 : Rgba) (x0 x1 y0 y1 fr fg fb : ℕ)
    (hx01 : x0 ≤ x1) (hx1W : x1 < W) (hy01 : y0 ≤ y1) (hy1H : y1 < H)
    (hback : matchRgba tol c2 c1 = false)
    (hfill : matchRgba tol ⟨fr, fg, fb, 255⟩ c1 = false) :
    ∀ (fuel : ℕ) (a b : ℕ) (stack : List (ℕ × ℕ)),
      x0 ≤ a → a ≤ b → b ≤ x1 →
      (∀ p ∈ stack, x0 ≤ p.1 ∧ p.1 ≤ x1 ∧ a - 1 ≤ p.1 ∧ p.1 ≤ b + 1 ∧
        y0 ≤ p.2 ∧ p.2 ≤ y1) →
      (x0 < a → (a - 1, y0) ∈ stack) →
      (b < x1 → (b + 1, y0) ∈ stack) →
      2 * ((a - x0) + (x1 - b)) + stack.length < fuel →
      floodFillLoop tol W H c1 fr fg fb 255 fuel
        (colsBuf W c1 c2 x0 x1 y0 y1 fr fg fb (colsIcc a b)) stack =
      (colsBuf W c1 c2 x0 x1 y0 y1 fr fg fb (colsIcc x0 x1), []) := by
  intro fuel
  induction fuel with
  | zero =>
    intro a b stack _ _ _ _ _ _ hfuel
    omega
  | succ fuel ih =>
    intro a b stack hx0a hab hbx1 hmem hfL hfR hfuel
    cases stack with
    | nil =>
      have ha : a = x0 := by
        by_contra hne
        exact absurd (hfL (by omega)) (List.not_mem_nil _)
      have hb : b = x1 := by
        by_contra hne
        exact absurd (hfR (by omega)) (List.not_mem_nil _)
      subst ha
      subst hb
      simp [floodFillLoop]
    | cons hd rest =>
      obtain ⟨x, y⟩ := hd
      obtain ⟨hk1, hk2, hk3, hk4, hk5, hk6⟩ := hmem (x, y) (List.mem_cons_self _ _)
      have hqx0 : x0 ≤ x := hk1
      have hqx1 : x ≤ x1 := hk2
      have hqa : a - 1 ≤ x := hk3
      have hqb : x ≤ b + 1 := hk4
      have hqy0 : y0 ≤ y := hk5
      have hqy1 : y ≤ y1 := hk6
      rw [List.length_cons] at hfuel
      simp only [floodFillLoop]
      by_cases hstale : a ≤ x ∧ x ≤ b
      · have hPx : colsIcc a b x = true := by
          unfold colsIcc
          rw [decide_eq_true hstale.1, decide_eq_true hstale.2]
          rfl
        rw [pop_stale tol W H c1 c2 x0 x1 y0 y1 fr fg fb hback hfill
          (colsIcc a b) x y (by omega) hPx rest]
        refine ih a b rest hx0a hab hbx1
          (fun p hp => hmem p (List.mem_cons_of_mem _ hp)) ?_ ?_ (by omega)
        · intro hlt
          rcases List.mem_cons.mp (hfL hlt) with heq | hm'
          · exfalso
            have h1 : a - 1 = x := congrArg Prod.fst heq
            omega
          · exact hm'
        · intro hlt
          rcases List.mem_cons.mp (hfR hlt) with heq | hm'
          · exfalso
            have h1 : b + 1 = x := congrArg Prod.fst heq
            omega
          · exact hm'
      · by_cases hxa : x < a
        · -- left frontier column x = a - 1
          have hxa1 : x = a - 1 := by omega
          have hax0 : x0 < a := by omega
          have hPx : colsIcc a b x = false := by
            unfold colsIcc
            rw [decide_eq_false (show ¬a ≤ x by omega)]
            rfl
          rw [scanUp_rect tol W c1 c2 x0 x1 y0 y1 fr fg fb hx1W hback hfill
            (colsIcc a b) x y hqx0 hqx1 hPx hqy0 hqy1]
          rw [downScan_entry tol W H c1 c2 x0 x1 y0 y1 fr fg fb hx01 hx1W hy01 hy1H
            hback hfill (colsIcc a b) x hqx0 hqx1 hPx rest]
          have hbL : (decide (x0 < x) && !(colsIcc a b (x - 1))) = decide (x0 < x) := by
            have hc : colsIcc a b (x - 1) = false := by
              unfold colsIcc
              rw [decide_eq_false (show ¬a ≤ x - 1 by omega)]
              rfl
            rw [hc]
            simp
          have hbR : (decide (x < x1) && !(colsIcc a b (x + 1))) = false := by
            have hc : colsIcc a b (x + 1) = true := by
              unfold colsIcc
              rw [decide_eq_true (show a ≤ x + 1 by omega),
                decide_eq_true (show x + 1 ≤ b by omega)]
              rfl
            rw [hc]
            simp
          rw [hbL, hbR]
          simp only [Bool.false_eq_true, if_false, List.nil_append]
          have hcols : colsBuf W c1 c2 x0 x1 y0 y1 fr fg fb
              (fun u => colsIcc a b u || decide (u = x)) =
              colsBuf W c1 c2 x0 x1 y0 y1 fr fg fb (colsIcc (a - 1) b) := by
            unfold colsBuf
            apply markData_congr
            intro u v
            have hcc : (colsIcc a b u || decide (u = x)) = colsIcc (a - 1) b u := by
              unfold colsIcc
              simp only [← Bool.decide_and, ← Bool.decide_or]
              exact decide_eq_decide.mpr (by omega)
            simp only [hcc]
          rw [hcols]
          by_cases hx0x : x0 < x
          · rw [decide_eq_true hx0x,
              show (if (true : Bool) = true then [(x - 1, y0)] else []) = [(x - 1, y0)]
                from rfl]
            refine ih (a - 1) b ((x - 1, y0) :: rest) (by omega) (by omega) hbx1 ?_ ?_ ?_ ?_
            · intro p hp
              rcases List.mem_cons.mp hp with heq | hm'
              · subst heq
                have c1' : x0 ≤ x - 1 := by omega
                have c2' : x - 1 ≤ x1 := by omega
                have c3' : a - 1 - 1 ≤ x - 1 := by omega
                have c4' : x - 1 ≤ b + 1 := by omega
                exact ⟨c1', c2', c3', c4', le_rfl, hy01⟩
              · obtain ⟨k1, k2, k3, k4, k5, k6⟩ := hmem p (List.mem_cons_of_mem _ hm')
                exact ⟨k1, k2, by omega, k4, k5, k6⟩
            · intro hlt
              have heq : a - 1 - 1 = x - 1 := by omega
              rw [heq]
              exact List.mem_cons_self _ _
            · intro hlt
              rcases List.mem_cons.mp (hfR hlt) with heq | hm'
              · exfalso
                have h1 : b + 1 = x := congrArg Prod.fst heq
                omega
              · exact List.mem_cons_of_mem _ hm'
            · rw [List.length_cons]
              omega
          · rw [decide_eq_false hx0x,
              show (if (false : Bool) = true then [(x - 1, y0)] else []) = [] from rfl,
              List.nil_append]
            refine ih (a - 1) b rest (by omega) (by omega) hbx1 ?_ ?_ ?_ (by omega)
            · intro p hp
              obtain ⟨k1, k2, k3, k4, k5, k6⟩ := hmem p (List.mem_cons_of_mem _ hp)
              exact ⟨k1, k2, by omega, k4, k5, k6⟩
            · intro hlt
              exfalso
              omega
            · intro hlt
              rcases List.mem_cons.mp (hfR hlt) with heq | hm'
              · exfalso
                have h1 : b + 1 = x := congrArg Prod.fst heq
                omega
              · exact hm'
        · -- right frontier column x = b + 1
          have hbx : b < x := by omega
          have hxb1 : x = b + 1 := by omega
          have hPx : colsIcc a b x = false := by
            unfold colsIcc
            rw [decide_eq_false (show ¬x ≤ b by omega)]
            simp
          rw [scanUp_rect tol W c1 c2 x0 x1 y0 y1 fr fg fb hx1W hback hfill
            (colsIcc a b) x y hqx0 hqx1 hPx hqy0 hqy1]
          rw [downScan_entry tol W H c1 c2 x0 x1 y0 y1 fr fg fb hx01 hx1W hy01 hy1H
            hback hfill (colsIcc a b) x hqx0 hqx1 hPx rest]
          have hbL : (decide (x0 < x) && !(colsIcc a b (x - 1))) = false := by
            have hc : colsIcc a b (x - 1) = true := by
              unfold colsIcc
              rw [decide_eq_true (show a ≤ x - 1 by omega),
                decide_eq_true (show x - 1 ≤ b by omega)]
              rfl
            rw [hc]
            simp
          have hbR : (decide (x < x1) && !(colsIcc a b (x + 1))) = decide (x < x1) := by
            have hc : colsIcc a b (x + 1) = false := by
              unfold colsIcc
              rw [decide_eq_false (show ¬x + 1 ≤ b by omega)]
              simp
            rw [hc]
            simp
          rw [hbL, hbR]
          simp only [Bool.false_eq_true, if_false, List.nil_append]
          have hcols : colsBuf W c1 c2 x0 x1 y0 y1 fr fg fb
              (fun u => colsIcc a b u || decide (u = x)) =
              colsBuf W c1 c2 x0 x1 y0 y1 fr fg fb (colsIcc a (b + 1)) := by
            unfold colsBuf
            apply markData_congr
            intro u v
            have hcc : (colsIcc a b u || decide (u = x)) = colsIcc a (b + 1) u := by
              unfold colsIcc
              simp only [← Bool.decide_and, ← Bool.decide_or]
              exact decide_eq_decide.mpr (by omega)
            simp only [hcc]
          rw [hcols]
          by_cases hxx1' : x < x1
          · rw [decide_eq_true hxx1',
              show (if (true : Bool) = true then [(x + 1, y0)] else []) = [(x + 1, y0)]
                from rfl]
            refine ih a (b + 1) ((x + 1, y0) :: rest) hx0a (by omega) (by omega) ?_ ?_ ?_ ?_
            · intro p hp
              rcases List.mem_cons.mp hp with heq | hm'
              · subst heq
                have c1' : x0 ≤ x + 1 := by omega
                have c2' : x + 1 ≤ x1 := by omega
                have c3' : a - 1 ≤ x + 1 := by omega
                have c4' : x + 1 ≤ b + 1 + 1 := by omega
                exact ⟨c1', c2', c3', c4', le_rfl, hy01⟩
              · obtain ⟨k1, k2, k3, k4, k5, k6⟩ := hmem p (List.mem_cons_of_mem _ hm')
                exact ⟨k1, k2, k3, by omega, k5, k6⟩
            · intro hlt
              rcases List.mem_cons.mp (hfL hlt) with heq | hm'
              · exfalso
                have h1 : a - 1 = x := congrArg Prod.fst heq
                omega
              · exact List.mem_cons_of_mem _ hm'
            · intro hlt
              have heq : b + 1 + 1 = x + 1 := by omega
              rw [heq]
              exact List.mem_cons_self _ _
            · rw [List.length_cons]
              omega
          · rw [decide_eq_false hxx1',
              show (if (false : Bool) = true then [(x + 1, y0)] else []) = [] from rfl,
              List.nil_append]
            refine ih a (b + 1) rest hx0a (by omega) (by omega) ?_ ?_ ?_ (by omega)
            · intro p hp
              obtain ⟨k1, k2, k3, k4, k5, k6⟩ := hmem p (List.mem_cons_of_mem _ hp)
              exact ⟨k1, k2, k3, by omega, k5, k6⟩
            · intro hlt
              rcases List.mem_cons.mp (hfL hlt) with heq | hm'
              · exfalso
                have h1 : a - 1 = x := congrArg Prod.fst heq
                omega
              · exact hm'
            · intro hlt
              exfalso
              omega

/-- The bare rectangle buffer is the column-marked buffer with no columns. -/
theorem rectData_eq_colsBuf (W : ℕ) (c1 c2 : Rgba) (x0 x1 y0 y1 fr fg fb : ℕ) :
    rectData W c1 c2 x0 x1 y0 y1 =
    colsBuf W c1 c2 x0 x1 y0 y1 fr fg fb (fun _ => false) := by
  funext bIdx
  unfold colsBuf markData
  simp

/-- `matchColor` against `c1` on the bare rectangle buffer holds exactly on
the rectangle. -/
theorem match_rect (tol W : ℕ) (c1 c2 : Rgba) (x0 x1 y0 y1 fr fg fb : ℕ)
    (x y : ℕ) (hx : x < W)
    (hback : matchRgba tol c2 c1 = false)
    (hfill : matchRgba tol ⟨fr, fg, fb, 255⟩ c1 = false) :
    matchColor tol (rectData W c1 c2 x0 x1 y0 y1) c1.r c1.g c1.b c1.a
      (pixelPos W x y) = decide (inR x0 x1 y0 y1 x y) := by
  rw [rectData_eq_colsBuf W c1 c2 x0 x1 y0 y1 fr fg fb,
    match_colsBuf tol W c1 c2 x0 x1 y0 y1 fr fg fb (fun _ => false) x y hx hback hfill]
  simp

/-- A full run of the scanline loop on the rectangle buffer from a single
seed inside the rectangle: with fuel at least `2·W + 2` it colors exactly the
rectangle and empties the stack. -/
theorem floodFillLoop_rect (tol W H : ℕ) (c1 c2 : Rgba) (x0 x1 y0 y1 fr fg fb : ℕ)
    (hx01 : x0 ≤ x1) (hx1W : x1 < W) (hy01 : y0 ≤ y1) (hy1H : y1 < H)
    (hback : matchRgba tol c2 c1 = false)
    (hfill : matchRgba tol ⟨fr, fg, fb, 255⟩ c1 = false)
    (sx sy : ℕ) (hsx0 : x0 ≤ sx) (hsx1 : sx ≤ x1) (hsy0 : y0 ≤ sy) (hsy1 : sy ≤ y1)
    (fuel : ℕ) (hfuel : 2 * W + 2 ≤ fuel) :
    floodFillLoop tol W H c1 fr fg fb 255 fuel
      (rectData W c1 c2 x0 x1 y0 y1) [(sx, sy)] =
    (colsBuf W c1 c2 x0 x1 y0 y1 fr fg fb (colsIcc x0 x1), []) := by
  cases fuel with
  | zero => omega
  | succ lf =>
    rw [rectData_eq_colsBuf W c1 c2 x0 x1 y0 y1 fr fg fb]
    simp only [floodFillLoop]
    rw [scanUp_rect tol W c1 c2 x0 x1 y0 y1 fr fg fb hx1W hback hfill
      (fun _ => false) sx sy hsx0 hsx1 rfl hsy0 hsy1]
    rw [downScan_entry tol W H c1 c2 x0 x1 y0 y1 fr fg fb hx01 hx1W hy01 hy1H
      hback hfill (fun _ => false) sx hsx0 hsx1 rfl []]
    simp only [Bool.not_false, Bool.and_true, List.append_nil]
    have hcols : colsBuf W c1 c2 x0 x1 y0 y1 fr fg fb
        (fun u => (fun _ => false) u || decide (u = sx)) =
        colsBuf W c1 c2 x0 x1 y0 y1 fr fg fb (colsIcc sx sx) := by
      unfold colsBuf
      apply markData_congr
      intro u v
      have hcc : ((fun _ : ℕ => false) u || decide (u = sx)) = colsIcc sx sx u := by
        simp only [colsIcc, Bool.false_or, ← Bool.decide_and]
        exact decide_eq_decide.mpr (by omega)
      simp only [hcc]
    rw [hcols]
    have hWpos : x1 - x0 < W := by omega
    by_cases hL : x0 < sx <;> by_cases hR : sx < x1
    · rw [decide_eq_true hL, decide_eq_true hR,
        show (if (true : Bool) = true then [(sx + 1, y0)] else []) = [(sx + 1, y0)]
          from rfl,
        show (if (true : Bool) = true then [(sx - 1, y0)] else []) = [(sx - 1, y0)]
          from rfl]
      refine floodFillLoop_inv tol W H c1 c2 x0 x1 y0 y1 fr fg fb hx01 hx1W hy01 hy1H
        hback hfill lf sx sx ([(sx + 1, y0)] ++ [(sx - 1, y0)])
        hsx0 le_rfl hsx1 ?_ ?_ ?_ ?_
      · intro p hp
        rcases List.mem_cons.mp hp with heq | hp'
        · subst heq
          exact ⟨by omega, by omega, by omega, by omega, le_rfl, hy01⟩
        · rcases List.mem_cons.mp hp' with heq | hp''
          · subst heq
            exact ⟨by omega, by omega, by omega, by omega, le_rfl, hy01⟩
          · exact absurd hp'' (List.not_mem_nil _)
      · intro _
        exact List.mem_cons_of_mem _ (List.mem_cons_self _ _)
      · intro _
        exact List.mem_cons_self _ _
      · simp only [List.length_append, List.length_cons, List.length_nil]
        omega
    · rw [decide_eq_true hL, decide_eq_false hR,
        show (if (false : Bool) = true then [(sx + 1, y0)] else []) = [] from rfl,
        show (if (true : Bool) = true then [(sx - 1, y0)] else []) = [(sx - 1, y0)]
          from rfl, List.nil_append]
      refine floodFillLoop_inv tol W H c1 c2 x0 x1 y0 y1 fr fg fb hx01 hx1W hy01 hy1H
        hback hfill lf sx sx [(sx - 1, y0)] hsx0 le_rfl hsx1 ?_ ?_ ?_ ?_
      · intro p hp
        rcases List.mem_cons.mp hp with heq | hp'
        · subst heq
          exact ⟨by omega, by omega, by omega, by omega, le_rfl, hy01⟩
        · exact absurd hp' (List.not_mem_nil _)
      · intro _
        exact List.mem_cons_self _ _
      · intro hlt
        exact absurd hlt (by omega)
      · simp only [List.length_cons, List.length_nil]
        omega
    · rw [decide_eq_false hL, decide_eq_true hR,
        show (if (true : Bool) = true then [(sx + 1, y0)] else []) = [(sx + 1, y0)]
          from rfl,
        show (if (false : Bool) = true then [(sx - 1, y0)] else []) = [] from rfl,
        List.append_nil]
      refine floodFillLoop_inv tol W H c1 c2 x0 x1 y0 y1 fr fg fb hx01 hx1W hy01 hy1H
        hback hfill lf sx sx [(sx + 1, y0)] hsx0 le_rfl hsx1 ?_ ?_ ?_ ?_
      · intro p hp
        rcases List.mem_cons.mp hp with heq | hp'
        · subst heq
          exact ⟨by omega, by omega, by omega, by omega, le_rfl, hy01⟩
        · exact absurd hp' (List.not_mem_nil _)
      · intro hlt
        exact absurd hlt (by omega)
      · intro _
        exact List.mem_cons_self _ _
      · simp only [List.length_cons, List.length_nil]
        omega
    · rw [decide_eq_false hL, decide_eq_false hR,
        show (if (false : Bool) = true then [(sx + 1, y0)] else []) = [] from rfl,
        show (if (false : Bool) = true then [(sx - 1, y0)] else []) = [] from rfl,
        List.append_nil]
      refine floodFillLoop_inv tol W H c1 c2 x0 x1 y0 y1 fr fg fb hx01 hx1W hy01 hy1H
        hback hfill lf sx sx [] hsx0 le_rfl hsx1 ?_ ?_ ?_ ?_
      · intro p hp
        exact absurd hp (List.not_mem_nil _)
      · intro hlt
        exact absurd hlt (by omega)
      · intro hlt
        exact absurd hlt (by omega)
      · simp only [List.length_nil]
        omega

/-- On the rectangle buffer, membership in the matching pixel set (in-bounds
and `matchColor` against `c1`) is exactly membership in the rectangle. -/
theorem rect_S_iff (tol W H : ℕ) (c1 c2 : Rgba) (x0 x1 y0 y1 fr fg fb : ℕ)
    (hx1W : x1 < W) (hy1H : y1 < H)
    (hback : matchRgba tol c2 c1 = false)
    (hfill : matchRgba tol ⟨fr, fg, fb, 255⟩ c1 = false)
    (p : ℕ × ℕ) :
    (p.1 < W ∧ p.2 < H ∧
      matchColor tol (rectData W c1 c2 x0 x1 y0 y1) c1.r c1.g c1.b c1.a
        (pixelPos W p.1 p.2) = true) ↔ inR x0 x1 y0 y1 p.1 p.2 := by
  constructor
  · rintro ⟨hw, _, hm⟩
    rw [match_rect tol W c1 c2 x0 x1 y0 y1 fr fg fb p.1 p.2 hw hback hfill] at hm
    exact of_decide_eq_true hm
  · intro hin
    obtain ⟨h1, h2, h3, h4⟩ := hin
    refine ⟨by omega, by omega, ?_⟩
    rw [match_rect tol W c1 c2 x0 x1 y0 y1 fr fg fb p.1 p.2 (by omega) hback hfill]
    exact decide_eq_true ⟨h1, h2, h3, h4⟩

/-- Any pixel of the rectangle is 4-connected to the seed inside any pixel
set containing the rectangle (walk along the seed's row, then the column). -/
theorem reach_rect (S : ℕ × ℕ → Prop) (x0 x1 y0 y1 : ℕ)
    (hS : ∀ a b, inR x0 x1 y0 y1 a b → S (a, b))
    (sx sy : ℕ) (hseed : inR x0 x1 y0 y1 sx sy)
    (x y : ℕ) (hin : inR x0 x1 y0 y1 x y) :
    floodReach S (sx, sy) (x, y) := by
  obtain ⟨hsx0, hsx1, hsy0, hsy1⟩ := hseed
  obtain ⟨hx0, hx1, hy0, hy1⟩ := hin
  have hrow : ∀ u : ℕ, x0 ≤ u → u ≤ x1 → floodReach S (sx, sy) (u, sy) := by
    have hup : ∀ k : ℕ, sx + k ≤ x1 → floodReach S (sx, sy) (sx + k, sy) := by
      intro k
      induction k with
      | zero => intro _; exact Relation.ReflTransGen.refl
      | succ k ih =>
        intro hk
        refine Relation.ReflTransGen.tail (ih (by omega)) ?_
        exact ⟨hS _ _ ⟨by omega, by omega, hsy0, hsy1⟩,
               hS _ _ ⟨by omega, by omega, hsy0, hsy1⟩,
               Or.inl ⟨rfl, rfl⟩⟩
    have hdown : ∀ k : ℕ, x0 + k ≤ sx → floodReach S (sx, sy) (sx - k, sy) := by
      intro k
      induction k with
      | zero => intro _; exact Relation.ReflTransGen.refl
      | succ k ih =>
        intro hk
        refine Relation.ReflTransGen.tail (ih (by omega)) ?_
        exact ⟨hS _ _ ⟨by omega, by omega, hsy0, hsy1⟩,
               hS _ _ ⟨by omega, by omega, hsy0, hsy1⟩,
               Or.inr (Or.inl ⟨show sx - k = sx - (k + 1) + 1 by omega, rfl⟩)⟩
    intro u hu0 hu1
    rcases le_or_lt sx u with h | h
    · obtain ⟨k, rfl⟩ : ∃ k, u = sx + k := ⟨u - sx, by omega⟩
      exact hup k (by omega)
    · obtain ⟨k, hks, rfl⟩ : ∃ k, k ≤ sx ∧ u = sx - k := ⟨sx - u, by omega, by omega⟩
      exact hdown k (by omega)
  have hcol : ∀ v : ℕ, y0 ≤ v → v ≤ y1 → floodReach S (x, sy) (x, v) := by
    have hup : ∀ k : ℕ, sy + k ≤ y1 → floodReach S (x, sy) (x, sy + k) := by
      intro k
      induction k with
      | zero => intro _; exact Relation.ReflTransGen.refl
      | succ k ih =>
        intro hk
        refine Relation.ReflTransGen.tail (ih (by omega)) ?_
        exact ⟨hS _ _ ⟨hx0, hx1, by omega, by omega⟩,
               hS _ _ ⟨hx0, hx1, by omega, by omega⟩,
               Or.inr (Or.inr (Or.inl ⟨rfl, rfl⟩))⟩
    have hdown : ∀ k : ℕ, y0 + k ≤ sy → floodReach S (x, sy) (x, sy - k) := by
      intro k
      induction k with
      | zero => intro _; exact Relation.ReflTransGen.refl
      | succ k ih =>
        intro hk
        refine Relation.ReflTransGen.tail (ih (by omega)) ?_
        exact ⟨hS _ _ ⟨hx0, hx1, by omega, by omega⟩,
               hS _ _ ⟨hx0, hx1, by omega, by omega⟩,
               Or.inr (Or.inr (Or.inr ⟨show sy - k = sy - (k + 1) + 1 by omega, rfl⟩))⟩
    intro v hv0 hv1
    rcases le_or_lt sy v with h | h
    · obtain ⟨k, rfl⟩ : ∃ k, v = sy + k := ⟨v - sy, by omega⟩
      exact hup k (by omega)
    · obtain ⟨k, hks, rfl⟩ : ∃ k, k ≤ sy ∧ v = sy - k := ⟨sy - v, by omega, by omega⟩
      exact hdown k (by omega)
  exact Relation.ReflTransGen.trans (hrow x hx0 hx1) (hcol y hy0 hy1)

/-- Conversely, every pixel 4-connected to the seed through matching pixels
lies in the rectangle. -/
theorem reach_rect_subset (tol W H : ℕ) (c1 c2 : Rgba) (x0 x1 y0 y1 fr fg fb : ℕ)
    (hx1W : x1 < W) (hy1H : y1 < H)
    (hback : matchRgba tol c2 c1 = false)
    (hfill : matchRgba tol ⟨fr, fg, fb, 255⟩ c1 = false)
    (sx sy : ℕ) (hseed : inR x0 x1 y0 y1 sx sy) (p : ℕ × ℕ)
    (hreach : floodReach (fun q => q.1 < W ∧ q.2 < H ∧
        matchColor tol (rectData W c1 c2 x0 x1 y0 y1) c1.r c1.g c1.b c1.a
          (pixelPos W q.1 q.2) = true) (sx, sy) p) :
    inR x0 x1 y0 y1 p.1 p.2 := by
  unfold floodReach at hreach
  induction hreach with
  | refl => exact hseed
  | tail hab hbc ih =>
    exact (rect_S_iff tol W H c1 c2 x0 x1 y0 y1 fr fg fb hx1W hy1H hback hfill
      _).mp hbc.2.1

/-- The whole pixel read from a column-marked buffer. -/
theorem readPixel_colsBuf (W : ℕ) (c1 c2 : Rgba) (x0 x1 y0 y1 fr fg fb : ℕ)
    (P : ℕ → Bool) (x y : ℕ) (hx : x < W) :
    readPixel W (colsBuf W c1 c2 x0 x1 y0 y1 fr fg fb P) x y =
      if (P x && decide (inR x0 x1 y0 y1 x y)) = true then (⟨fr, fg, fb, 255⟩ : Rgba)
      else if inR x0 x1 y0 y1 x y then c1 else c2 := by
  unfold colsBuf
  rw [readPixel_markData W _ _ _ x y hx, readPixel_rectData W c1 c2 x0 x1 y0 y1 x y hx]

/-- C1: on a buffer holding a single axis-aligned rectangle of uniform color
`c1` on background `c2` (with `c1` distinguishable from `c2` and from the fill
color under the tolerance), a `_floodFill` pass seeded inside the rectangle
(with enough stack fuel) reads `c1` at the seed, commits, and mutates exactly
the rectangle's pixels — which coincide with the 4-connected closure of the
seed under `matchColor` against `c1` (top and bottom rows included). -/
theorem claim_C1_fill_completeness
    (tol W H loopFuel : ℕ) (c1 c2 : Rgba) (x0 x1 y0 y1 fr fg fb sx sy : ℕ)
    (hx01 : x0 ≤ x1) (hx1W : x1 < W) (hy01 : y0 ≤ y1) (hy1H : y1 < H)
    (hback : matchRgba tol c2 c1 = false)
    (hfill : matchRgba tol ⟨fr, fg, fb, 255⟩ c1 = false)
    (hseed : inR x0 x1 y0 y1 sx sy)
    (hfuel : 2 * W + 2 ≤ loopFuel) :
    readPixel W (rectData W c1 c2 x0 x1 y0 y1) sx sy = c1 ∧
    (floodFillStep tol W H loopFuel fr fg fb 255
        (rectData W c1 c2 x0 x1 y0 y1) (sx : ℚ) (sy : ℚ) c1).2 = true ∧
    (∀ x y : ℕ, x < W → y < H →
      (readPixel W (floodFillStep tol W H loopFuel fr fg fb 255
          (rectData W c1 c2 x0 x1 y0 y1) (sx : ℚ) (sy : ℚ) c1).1 x y ≠
        readPixel W (rectData W c1 c2 x0 x1 y0 y1) x y ↔ inR x0 x1 y0 y1 x y)) ∧
    (∀ x y : ℕ,
      floodReach (fun p => p.1 < W ∧ p.2 < H ∧
          matchColor tol (rectData W c1 c2 x0 x1 y0 y1) c1.r c1.g c1.b c1.a
            (pixelPos W p.1 p.2) = true) (sx, sy) (x, y) ↔
        inR x0 x1 y0 y1 x y) := by
  obtain ⟨hsx0, hsx1, hsy0, hsy1⟩ := hseed
  have hfillne : (⟨fr, fg, fb, 255⟩ : Rgba) ≠ c1 := by
    intro he
    rw [he, matchRgba_refl] at hfill
    exact absurd hfill (by decide)
  have hfsx : (⌊(sx : ℚ)⌋).toNat = sx := by simp
  have hfsy : (⌊(sy : ℚ)⌋).toNat = sy := by simp
  have hearly : matchColor tol (rectData W c1 c2 x0 x1 y0 y1) fr fg fb 255
      (pixelPos W sx sy) = false := by
    rw [matchColor_readPixel tol (rectData W c1 c2 x0 x1 y0 y1) fr fg fb 255 W sx sy,
      readPixel_rectData W c1 c2 x0 x1 y0 y1 sx sy (by omega),
      if_pos ⟨hsx0, hsx1, hsy0, hsy1⟩, matchRgba_comm]
    exact hfill
  have hstep : floodFillStep tol W H loopFuel fr fg fb 255
      (rectData W c1 c2 x0 x1 y0 y1) (sx : ℚ) (sy : ℚ) c1 =
      (colsBuf W c1 c2 x0 x1 y0 y1 fr fg fb (colsIcc x0 x1), true) := by
    simp only [floodFillStep, hfsx, hfsy]
    rw [if_neg (by rw [hearly]; exact (by decide))]
    rw [floodFillLoop_rect tol W H c1 c2 x0 x1 y0 y1 fr fg fb hx01 hx1W hy01 hy1H
      hback hfill sx sy hsx0 hsx1 hsy0 hsy1 loopFuel hfuel]
  have hstep1 : (floodFillStep tol W H loopFuel fr fg fb 255
      (rectData W c1 c2 x0 x1 y0 y1) (sx : ℚ) (sy : ℚ) c1).1 =
      colsBuf W c1 c2 x0 x1 y0 y1 fr fg fb (colsIcc x0 x1) := by
    rw [hstep]
  refine ⟨?_, ?_, ?_, ?_⟩
  · rw [readPixel_rectData W c1 c2 x0 x1 y0 y1 sx sy (by omega),
      if_pos ⟨hsx0, hsx1, hsy0, hsy1⟩]
  · rw [hstep]
  · intro x y hxW hyH
    rw [hstep1,
      readPixel_colsBuf W c1 c2 x0 x1 y0 y1 fr fg fb (colsIcc x0 x1) x y hxW,
      readPixel_rectData W c1 c2 x0 x1 y0 y1 x y hxW]
    by_cases hin : inR x0 x1 y0 y1 x y
    · have hP : (colsIcc x0 x1 x && decide (inR x0 x1 y0 y1 x y)) = true := by
        obtain ⟨h1, h2, h3, h4⟩ := hin
        simp only [colsIcc, Bool.and_eq_true, decide_eq_true_eq]
        exact ⟨⟨h1, h2⟩, h1, h2, h3, h4⟩
      rw [if_pos hP, if_pos hin]
      exact iff_of_true hfillne hin
    · have hP : (colsIcc x0 x1 x && decide (inR x0 x1 y0 y1 x y)) = false := by
        rw [decide_eq_false hin, Bool.and_false]
      rw [hP]
      simp only [Bool.false_eq_true, if_false]
      rw [if_neg hin]
      exact iff_of_false (fun h => h rfl) hin
  · intro x y
    constructor
    · intro hreach
      exact reach_rect_subset tol W H c1 c2 x0 x1 y0 y1 fr fg fb hx1W hy1H
        hback hfill sx sy ⟨hsx0, hsx1, hsy0, hsy1⟩ (x, y) hreach
    · intro hin
      refine reach_rect _ x0 x1 y0 y1 ?_ sx sy ⟨hsx0, hsx1, hsy0, hsy1⟩ x y hin
      intro a b hab
      exact (rect_S_iff tol W H c1 c2 x0 x1 y0 y1 fr fg fb hx1W hy1H hback hfill
        (a, b)).mpr hab

/-- Witness for C1: a 4×3 buffer with a `[1..2] × [1..2]` rectangle of color
(10,20,30) on black, seeded at (1,2) and filled with (200,100,50); the
hypotheses hold by computation and the pass commits. -/
theorem claim_C1_fill_completeness_witness :
    matchRgba 0 ⟨0, 0, 0, 255⟩ ⟨10, 20, 30, 255⟩ = false ∧
    (floodFillStep 0 4 3 10 200 100 50 255
        (rectData 4 ⟨10, 20, 30, 255⟩ ⟨0, 0, 0, 255⟩ 1 2 1 2)
        ((1 : ℕ) : ℚ) ((2 : ℕ) : ℚ) ⟨10, 20, 30, 255⟩).2 = true :=
  ⟨by decide,
   (claim_C1_fill_completeness 0 4 3 10 ⟨10, 20, 30, 255⟩ ⟨0, 0, 0, 255⟩
     1 2 1 2 200 100 50 1 2 (by decide) (by decide) (by decide) (by decide)
     (by decide) (by decide) (by decide) (by decide)).2.1⟩
